import Mathlib

/-!
Clock bring-up of `arch/riscv32/core/prep_c.c`.

A shallow embedding of `mtime_lo`, `use_hfrosc`, `use_pll`, `use_default_clocks`
and `_PrepC`.  Memory-mapped registers are a store of 32-bit words; every
volatile access is recorded in a trace, in program order.  A read returns the
stored word, except for the hardware-driven status bits (oscillator ready in
HFROSCCFG, PLL lock in PLLCFG) and the tick counter, which are supplied by an
arbitrary environment, one value per read.  The three busy-wait loops take a
fuel bound; every function returns the machine reached and a flag telling
whether it returned within the fuel.

The headers `prci.h`, `aon.h`, `spi.h` and `clint.h` are not part of the
sources: the field macros are parameters (a mask and a shift per field), and
the results hold for every layout whose fields lie in the word and do not
overlap.  The routines `_bss_zero`, `_data_copy` and `_Cstart` appear as calls.
-/

namespace PrepC

/-! ## Register fields -/

/-- Modelled from the spec: the field macros of `prci.h` (`ROSC_DIV`, `PLL_SEL`, ...)
are not part of the sources.  Each has the shape `(((x) & mask) << shift)`; the
mask and the shift of every field are left as parameters. -/
structure Field where
  mask : Nat
  shift : Nat
deriving DecidableEq, Repr

/-- The 32-bit two's-complement pattern of a C `int`. -/
def toU32 (x : Int) : Nat := (x % 4294967296).toNat

/-- The value `(((x) & mask) << shift)` as a 32-bit word. -/
def Field.pack (f : Field) (x : Int) : Nat :=
  ((toU32 x &&& f.mask) <<< f.shift) % 4294967296

/-- The register bits a field occupies. -/
def Field.bits (f : Field) : Nat := f.mask <<< f.shift

/-- The content of a field of the register value `v`. -/
def Field.get (f : Field) (v : Nat) : Nat := (v >>> f.shift) &&& f.mask

/-- The field can hold `x` unchanged. -/
def Field.Fits (f : Field) (x : Int) : Prop := 0 ≤ x ∧ x < 4294967296 ∧ x.toNat &&& f.mask = x.toNat

instance (f : Field) (x : Int) : Decidable (f.Fits x) := by
  unfold Field.Fits; infer_instance

/-- The operator `~` on a 32-bit word. -/
def not32 (v : Nat) : Nat := 4294967295 - v

/-- Modelled from the spec: the register layout of `prci.h`, absent from the
sources: the fields of the oscillator-configuration register (divider, trim,
enable, ready), of the PLL-configuration register (r, f, q dividers, select,
reference-select, bypass, lock) and of the PLL final-divider register. -/
structure Layout where
  rosc_div : Field
  rosc_trim : Field
  rosc_en : Field
  rosc_rdy : Field
  pll_r : Field
  pll_f : Field
  pll_q : Field
  pll_sel : Field
  pll_refsel : Field
  pll_bypass : Field
  pll_lock : Field
  pll_final_div : Field
  pll_final_div_by_1 : Field
deriving DecidableEq, Repr

section Macros
variable (L : Layout)

def ROSC_DIV (x : Int) : Nat := L.rosc_div.pack x
def ROSC_TRIM (x : Int) : Nat := L.rosc_trim.pack x
def ROSC_EN (x : Int) : Nat := L.rosc_en.pack x
def ROSC_RDY (x : Int) : Nat := L.rosc_rdy.pack x
def PLL_R (x : Int) : Nat := L.pll_r.pack x
def PLL_F (x : Int) : Nat := L.pll_f.pack x
def PLL_Q (x : Int) : Nat := L.pll_q.pack x
def PLL_SEL (x : Int) : Nat := L.pll_sel.pack x
def PLL_REFSEL (x : Int) : Nat := L.pll_refsel.pack x
def PLL_BYPASS (x : Int) : Nat := L.pll_bypass.pack x
def PLL_LOCK (x : Int) : Nat := L.pll_lock.pack x
def PLL_FINAL_DIV (x : Int) : Nat := L.pll_final_div.pack x
def PLL_FINAL_DIV_BY_1 (x : Int) : Nat := L.pll_final_div_by_1.pack x

end Macros

/-- Two fields of one register share no bit. -/
def Field.Disjoint (f g : Field) : Prop := f.bits &&& g.bits = 0

instance (f g : Field) : Decidable (f.Disjoint g) := by
  unfold Field.Disjoint; infer_instance

/-- The fields of the PLL-configuration register. -/
def Layout.pllcfgFields (L : Layout) : List Field :=
  [L.pll_r, L.pll_f, L.pll_q, L.pll_sel, L.pll_refsel, L.pll_bypass, L.pll_lock]

/-- The fields of the oscillator-configuration register. -/
def Layout.hfroscFields (L : Layout) : List Field :=
  [L.rosc_div, L.rosc_trim, L.rosc_en, L.rosc_rdy]

/-- The fields of the PLL final-divider register. -/
def Layout.plldivFields (L : Layout) : List Field :=
  [L.pll_final_div, L.pll_final_div_by_1]

/-- A layout is well formed when every field lies inside the 32-bit word, the
fields of one register are pairwise disjoint, and each one-bit flag written as
`FLAG(1)` is not the empty word. -/
def Layout.WF (L : Layout) : Prop :=
  (∀ f ∈ L.pllcfgFields ++ L.hfroscFields ++ L.plldivFields, f.bits < 4294967296) ∧
  L.pllcfgFields.Pairwise Field.Disjoint ∧
  L.hfroscFields.Pairwise Field.Disjoint ∧
  L.plldivFields.Pairwise Field.Disjoint ∧
  PLL_SEL L 1 ≠ 0 ∧ PLL_BYPASS L 1 ≠ 0 ∧ PLL_LOCK L 1 ≠ 0 ∧
  ROSC_EN L 1 ≠ 0 ∧ ROSC_RDY L 1 ≠ 0 ∧ PLL_FINAL_DIV_BY_1 L 1 ≠ 0

instance (L : Layout) : Decidable L.WF := by
  unfold Layout.WF; infer_instance

/-- A sample layout, that of the SiFive FE310 clock block, used for the
concrete runs. -/
def fe310 : Layout where
  rosc_div := ⟨0x3F, 0⟩
  rosc_trim := ⟨0x1F, 16⟩
  rosc_en := ⟨0x1, 30⟩
  rosc_rdy := ⟨0x1, 31⟩
  pll_r := ⟨0x7, 0⟩
  pll_f := ⟨0x3F, 4⟩
  pll_q := ⟨0x3, 10⟩
  pll_sel := ⟨0x1, 16⟩
  pll_refsel := ⟨0x1, 17⟩
  pll_bypass := ⟨0x1, 18⟩
  pll_lock := ⟨0x1, 31⟩
  pll_final_div := ⟨0x3F, 0⟩
  pll_final_div_by_1 := ⟨0x1, 8⟩

/-! ## Machine -/

/-- The memory-mapped registers the code accesses. -/
inductive Reg where
  | HFROSCCFG
  | PLLCFG
  | PLLDIV
  | AON_LFROSC
  | SPI_SCKDIV
  | MTIME
deriving DecidableEq, Repr

/-- The routines `_PrepC` calls that live outside the file. -/
inductive Ext where
  | bss_zero
  | data_copy
  | Cstart
deriving DecidableEq, Repr

/-- One observable step: a volatile read with the value returned, a volatile
write with the value stored, or a call of an outside routine. -/
inductive Event where
  | read (r : Reg) (v : Nat)
  | write (r : Reg) (v : Nat)
  | call (fn : Ext)
deriving DecidableEq, Repr

/-- The hardware environment: the ready bit returned by the k-th read of
HFROSCCFG, the lock bit returned by the k-th read of PLLCFG, and the k-th
sample of the tick counter. -/
structure Hw where
  rdy : Nat → Bool
  lock : Nat → Bool
  mtime : Nat → Nat

/-- Register store, number of reads made of each register, and the trace. -/
structure Machine where
  regs : Reg → Nat
  reads : Reg → Nat
  trace : List Event

/-- A stored word with a hardware-driven status bit laid over it. -/
def ovl (stored bit : Nat) (b : Bool) : Nat :=
  if b then stored ||| bit else stored &&& not32 bit

/-- The value a volatile read of `r` returns. -/
def hwValue (L : Layout) (hw : Hw) (m : Machine) : Reg → Nat
  | .HFROSCCFG => ovl (m.regs .HFROSCCFG) (ROSC_RDY L 1) (hw.rdy (m.reads .HFROSCCFG))
  | .PLLCFG => ovl (m.regs .PLLCFG) (PLL_LOCK L 1) (hw.lock (m.reads .PLLCFG))
  | .MTIME => hw.mtime (m.reads .MTIME) % 4294967296
  | r => m.regs r

/-- A volatile read. -/
def rd (L : Layout) (hw : Hw) (r : Reg) (m : Machine) : Nat × Machine :=
  (hwValue L hw m r,
   { regs := m.regs
     reads := Function.update m.reads r (m.reads r + 1)
     trace := m.trace ++ [Event.read r (hwValue L hw m r)] })

/-- A volatile write. -/
def wr (r : Reg) (v : Nat) (m : Machine) : Machine :=
  { regs := Function.update m.regs r v
    reads := m.reads
    trace := m.trace ++ [Event.write r v] }

/-- A call of an outside routine. -/
def ext (fn : Ext) (m : Machine) : Machine :=
  { m with trace := m.trace ++ [Event.call fn] }

/-- The loop `while (again(read)) ;` with an empty body; the flag tells whether
the loop was left within the fuel. -/
def spin (read : Machine → Nat × Machine) (again : Nat → Bool) :
    Nat → Machine → Machine × Bool
  | 0, m => (m, false)
  | n + 1, m =>
    if again (read m).1 then spin read again n (read m).2 else ((read m).2, true)

/-! ## The code -/

/-- `mtime_lo`: one sample of the tick counter. -/
def mtime_lo (L : Layout) (hw : Hw) (m : Machine) : Nat × Machine :=
  rd L hw .MTIME m

/-- `use_hfrosc(div, trim)`. -/
def use_hfrosc (L : Layout) (hw : Hw) (fuel : Nat) (div trim : Int) (m : Machine) :
    Machine × Bool :=
  let m1 := wr .HFROSCCFG (ROSC_DIV L div ||| ROSC_TRIM L trim ||| ROSC_EN L 1) m
  let w := spin (rd L hw .HFROSCCFG) (fun v => v &&& ROSC_RDY L 1 == 0) fuel m1
  if w.2 then
    let x := rd L hw .PLLCFG w.1
    (wr .PLLCFG (x.1 &&& not32 (PLL_SEL L 1)) x.2, true)
  else (w.1, false)

/-- `use_pll(refsel, bypass, r, f, q)`. -/
def use_pll (L : Layout) (hw : Hw) (fuel : Nat) (refsel bypass r f q : Int)
    (m : Machine) : Machine × Bool :=
  let x := rd L hw .PLLCFG m
  let h := if x.1 &&& PLL_SEL L 1 ≠ 0 then use_hfrosc L hw fuel 4 16 x.2 else (x.2, true)
  if h.2 then
    let m := h.1
    let config_value := 0
    let config_value := config_value ||| PLL_REFSEL L refsel
    let b :=
      if bypass ≠ 0 then
        let config_value := config_value ||| PLL_BYPASS L 1
        let m := wr .PLLCFG config_value m
        let m := wr .PLLDIV (PLL_FINAL_DIV_BY_1 L 1 ||| PLL_FINAL_DIV L 0) m
        (m, true)
      else
        let m := wr .SPI_SCKDIV 8 m
        let config_value := config_value ||| PLL_BYPASS L 1
        let config_value := config_value ||| PLL_R L r
        let config_value := config_value ||| PLL_F L f
        let config_value := config_value ||| PLL_Q L q
        let m := wr .PLLDIV (PLL_FINAL_DIV_BY_1 L 1 ||| PLL_FINAL_DIV L 0) m
        let m := wr .PLLCFG config_value m
        let x := rd L hw .PLLCFG m
        let m := wr .PLLCFG (x.1 &&& not32 (PLL_BYPASS L 1)) x.2
        let now := mtime_lo L hw m
        let w := spin (mtime_lo L hw)
          (fun t => decide ((t + 4294967296 - now.1) % 4294967296 < 4)) fuel now.2
        if w.2 then spin (rd L hw .PLLCFG) (fun v => v &&& PLL_LOCK L 1 == 0) fuel w.1
        else (w.1, false)
    if b.2 then
      let x := rd L hw .PLLCFG b.1
      (wr .PLLCFG (x.1 ||| PLL_SEL L 1) x.2, true)
    else (b.1, false)
  else (h.1, false)

/-- `use_default_clocks()`. -/
def use_default_clocks (L : Layout) (hw : Hw) (fuel : Nat) (m : Machine) :
    Machine × Bool :=
  let x := rd L hw .AON_LFROSC m
  let m := wr .AON_LFROSC (x.1 &&& not32 (ROSC_EN L 1)) x.2
  use_hfrosc L hw fuel 4 16 m

/-- `_PrepC()`; `xip` is the compile-time flag `CONFIG_XIP`. -/
def _PrepC (L : Layout) (hw : Hw) (xip : Bool) (fuel : Nat) (m : Machine) :
    Machine × Bool :=
  let m := ext .bss_zero m
  let m := if xip then ext .data_copy m else m
  let c := use_default_clocks L hw fuel m
  if c.2 then
    let p := use_pll L hw fuel 0 0 1 31 1 c.1
    if p.2 then (ext .Cstart p.1, true) else (p.1, false)
  else (c.1, false)

/-! ## The parts of `use_pll` -/

/-- The word `use_hfrosc` writes to HFROSCCFG. -/
def hfroscWord (L : Layout) (div trim : Int) : Nat :=
  ROSC_DIV L div ||| ROSC_TRIM L trim ||| ROSC_EN L 1

/-- The word `use_pll` writes to PLLCFG in the bypass branch. -/
def bypassWord (L : Layout) (refsel : Int) : Nat :=
  0 ||| PLL_REFSEL L refsel ||| PLL_BYPASS L 1

/-- The word `use_pll` writes to PLLCFG in the other branch. -/
def configWord (L : Layout) (refsel r f q : Int) : Nat :=
  0 ||| PLL_REFSEL L refsel ||| PLL_BYPASS L 1 ||| PLL_R L r ||| PLL_F L f ||| PLL_Q L q

/-- The word `use_pll` writes to PLLDIV. -/
def passThrough (L : Layout) : Nat := PLL_FINAL_DIV_BY_1 L 1 ||| PLL_FINAL_DIV L 0

/-- Lines 48-51 of `use_pll`: the check of the active clock source. -/
def pll_head (L : Layout) (hw : Hw) (fuel : Nat) (m : Machine) : Machine × Bool :=
  let x := rd L hw .PLLCFG m
  if x.1 &&& PLL_SEL L 1 ≠ 0 then use_hfrosc L hw fuel 4 16 x.2 else (x.2, true)

/-- Lines 60-66 of `use_pll`: the bypass branch. -/
def pll_bypass (L : Layout) (refsel : Int) (m : Machine) : Machine :=
  wr .PLLDIV (passThrough L) (wr .PLLCFG (bypassWord L refsel) m)

/-- Lines 74-115 of `use_pll`: the other branch. -/
def pll_nobypass (L : Layout) (hw : Hw) (fuel : Nat) (refsel r f q : Int) (m : Machine) :
    Machine × Bool :=
  let m := wr .SPI_SCKDIV 8 m
  let m := wr .PLLDIV (passThrough L) m
  let m := wr .PLLCFG (configWord L refsel r f q) m
  let x := rd L hw .PLLCFG m
  let m := wr .PLLCFG (x.1 &&& not32 (PLL_BYPASS L 1)) x.2
  let now := mtime_lo L hw m
  let w := spin (mtime_lo L hw)
    (fun t => decide ((t + 4294967296 - now.1) % 4294967296 < 4)) fuel now.2
  if w.2 then spin (rd L hw .PLLCFG) (fun v => v &&& PLL_LOCK L 1 == 0) fuel w.1
  else (w.1, false)

/-- Line 119 of `use_pll`: the switch to the PLL. -/
def pll_select (L : Layout) (hw : Hw) (m : Machine) : Machine :=
  wr .PLLCFG ((rd L hw .PLLCFG m).1 ||| PLL_SEL L 1) (rd L hw .PLLCFG m).2

/-! ## Trace vocabulary -/

/-- The value the `j`-th further read of `r` returns, counted from machine `m`,
when nothing is written meanwhile. -/
def valAt (L : Layout) (hw : Hw) (m : Machine) (r : Reg) (j : Nat) : Nat :=
  hwValue L hw { regs := m.regs
                 reads := Function.update m.reads r (m.reads r + j)
                 trace := m.trace } r

/-- The events of `k` successive reads of `r` from machine `m`. -/
def readsOf (L : Layout) (hw : Hw) (m : Machine) (r : Reg) (k : Nat) : List Event :=
  (List.range k).map fun j => Event.read r (valAt L hw m r j)

/-- The machine after `k` successive reads of `r`. -/
def afterReads (L : Layout) (hw : Hw) (m : Machine) (r : Reg) (k : Nat) : Machine :=
  { regs := m.regs
    reads := Function.update m.reads r (m.reads r + k)
    trace := m.trace ++ readsOf L hw m r k }

/-- The machine while `use_hfrosc` polls: HFROSCCFG written, then read `k` times. -/
def hfroscPolled (L : Layout) (hw : Hw) (div trim : Int) (m : Machine) (k : Nat) : Machine :=
  afterReads L hw (wr .HFROSCCFG (hfroscWord L div trim) m) .HFROSCCFG k

/-- The machine after line 104 of `use_pll`: dividers written, bypass cleared. -/
def pll_unbypassed (L : Layout) (hw : Hw) (refsel r f q : Int) (m : Machine) : Machine :=
  wr .PLLCFG
    ((rd L hw .PLLCFG (wr .PLLCFG (configWord L refsel r f q)
        (wr .PLLDIV (passThrough L) (wr .SPI_SCKDIV 8 m)))).1 &&& not32 (PLL_BYPASS L 1))
    (rd L hw .PLLCFG (wr .PLLCFG (configWord L refsel r f q)
        (wr .PLLDIV (passThrough L) (wr .SPI_SCKDIV 8 m)))).2

/-- The machine after line 111 of `use_pll`: the sample `now` taken. -/
def pll_settling (L : Layout) (hw : Hw) (refsel r f q : Int) (m : Machine) : Machine :=
  (mtime_lo L hw (pll_unbypassed L hw refsel r f q m)).2

/-- The sample `now` of line 111 of `use_pll`. -/
def pll_now (L : Layout) (hw : Hw) (refsel r f q : Int) (m : Machine) : Nat :=
  (mtime_lo L hw (pll_unbypassed L hw refsel r f q m)).1

/-- The 32-bit difference `t - now` of two counter samples. -/
def tickDiff (t now : Nat) : Nat := (t + 4294967296 - now) % 4294967296

/-- The events of `k` successive samples of the counter, from sample `n0` on. -/
def tickReads (hw : Hw) (n0 k : Nat) : List Event :=
  (List.range k).map fun j => Event.read .MTIME (hw.mtime (n0 + j) % 4294967296)

/-- The events of `k` successive reads of PLLCFG holding `stored`, from read
`n0` on. -/
def lockReads (L : Layout) (hw : Hw) (stored n0 k : Nat) : List Event :=
  (List.range k).map fun j =>
    Event.read .PLLCFG (ovl stored (PLL_LOCK L 1) (hw.lock (n0 + j)))

/-- The events of `k` successive reads of HFROSCCFG holding `stored`, from read
`n0` on. -/
def rdyReads (L : Layout) (hw : Hw) (stored n0 k : Nat) : List Event :=
  (List.range k).map fun j =>
    Event.read .HFROSCCFG (ovl stored (ROSC_RDY L 1) (hw.rdy (n0 + j)))

/-- The events of `use_hfrosc(div, trim)` when PLLCFG holds `stored`, HFROSCCFG
has been read `nH` times and PLLCFG `nP` times before, and the loop reads
HFROSCCFG `k` times; `done` tells whether the loop was left. -/
def hfroscEvents (L : Layout) (hw : Hw) (div trim : Int) (stored nH nP k : Nat)
    (done : Bool) : List Event :=
  Event.write .HFROSCCFG (hfroscWord L div trim) ::
    (rdyReads L hw (hfroscWord L div trim) nH k ++
      (if done then
        [Event.read .PLLCFG (ovl stored (PLL_LOCK L 1) (hw.lock nP)),
         Event.write .PLLCFG (ovl stored (PLL_LOCK L 1) (hw.lock nP) &&& not32 (PLL_SEL L 1))]
       else []))

/-- The word line 104 of `use_pll` writes: the configuration word as read
back at PLLCFG read `nP`, with the bypass bit cleared. -/
def unbypassWord (L : Layout) (hw : Hw) (refsel r f q : Int) (nP : Nat) : Nat :=
  ovl (configWord L refsel r f q) (PLL_LOCK L 1) (hw.lock nP) &&& not32 (PLL_BYPASS L 1)

/-- The events of lines 74-115 of `use_pll` when PLLCFG has been read `nP` times
and the counter `nT` times before, the wait loop samples the counter `k2`
times and the lock loop reads PLLCFG `k3` times. -/
def nobypassEvents (L : Layout) (hw : Hw) (refsel r f q : Int) (nP nT k2 k3 : Nat) :
    List Event :=
  [Event.write .SPI_SCKDIV 8,
   Event.write .PLLDIV (passThrough L),
   Event.write .PLLCFG (configWord L refsel r f q),
   Event.read .PLLCFG (ovl (configWord L refsel r f q) (PLL_LOCK L 1) (hw.lock nP)),
   Event.write .PLLCFG (unbypassWord L hw refsel r f q nP),
   Event.read .MTIME (hw.mtime nT % 4294967296)]
  ++ tickReads hw (nT + 1) k2
  ++ lockReads L hw (unbypassWord L hw refsel r f q nP) (nP + 1) k3

/-- The events of line 119 of `use_pll` when PLLCFG holds `stored` and has been
read `n` times before. -/
def selectEvents (L : Layout) (hw : Hw) (stored n : Nat) : List Event :=
  [Event.read .PLLCFG (ovl stored (PLL_LOCK L 1) (hw.lock n)),
   Event.write .PLLCFG (ovl stored (PLL_LOCK L 1) (hw.lock n) ||| PLL_SEL L 1)]

/-- The writes and calls of a complete run of `_PrepC` after the memory
bring-up, in order, from the machine `m`; `k3` is the number of lock polls. -/
def prepSteps (L : Layout) (hw : Hw) (m : Machine) (k3 : Nat) : List Event :=
  [Event.write .AON_LFROSC (m.regs .AON_LFROSC &&& not32 (ROSC_EN L 1)),
   Event.write .HFROSCCFG (hfroscWord L 4 16),
   Event.write .PLLCFG
     (ovl (m.regs .PLLCFG) (PLL_LOCK L 1) (hw.lock (m.reads .PLLCFG)) &&& not32 (PLL_SEL L 1)),
   Event.write .SPI_SCKDIV 8,
   Event.write .PLLDIV (passThrough L),
   Event.write .PLLCFG (configWord L 0 1 31 1),
   Event.write .PLLCFG (unbypassWord L hw 0 1 31 1 (m.reads .PLLCFG + 2)),
   Event.write .PLLCFG
     (ovl (unbypassWord L hw 0 1 31 1 (m.reads .PLLCFG + 2)) (PLL_LOCK L 1)
       (hw.lock (m.reads .PLLCFG + 3 + k3)) ||| PLL_SEL L 1),
   Event.call .Cstart]

/-- The stored PLLCFG word after the events `es`, starting from the stored
word `c`. -/
def pllcfgAfter (c : Nat) : List Event → Nat
  | [] => c
  | Event.write .PLLCFG v :: es => pllcfgAfter v es
  | _ :: es => pllcfgAfter c es

/-- Every write among the events `es` is made while the stored PLLCFG word,
`c` at the start, has the select bit clear. -/
def selClearAtWrites (L : Layout) : Nat → List Event → Prop
  | _, [] => True
  | c, Event.write r v :: es =>
    c &&& PLL_SEL L 1 = 0 ∧ selClearAtWrites L (if r = Reg.PLLCFG then v else c) es
  | c, _ :: es => selClearAtWrites L c es

/-- The event with the lock position of a PLLCFG value blanked. -/
def Event.dropLock (L : Layout) : Event → Event
  | .read .PLLCFG v => .read .PLLCFG (v &&& not32 (PLL_LOCK L 1))
  | .write .PLLCFG v => .write .PLLCFG (v &&& not32 (PLL_LOCK L 1))
  | e => e

/-- Two machines that differ at most in the lock position of PLLCFG words:
same registers, same read counts and same accesses apart from that position. -/
def SameButLock (L : Layout) (a b : Machine) : Prop :=
  (∀ r, r ≠ Reg.PLLCFG → a.regs r = b.regs r) ∧
  a.regs .PLLCFG &&& not32 (PLL_LOCK L 1) = b.regs .PLLCFG &&& not32 (PLL_LOCK L 1) ∧
  a.reads = b.reads ∧
  a.trace.map (Event.dropLock L) = b.trace.map (Event.dropLock L)

/-- The environment `hw` with the lock readings replaced. -/
def Hw.withLock (hw : Hw) (lock : Nat → Bool) : Hw :=
  { rdy := hw.rdy, lock := lock, mtime := hw.mtime }

/-- The event is a write or a call, not a read. -/
def Event.isStep : Event → Bool
  | .read _ _ => false
  | _ => true

/-! ## Sample environments -/

/-- A machine with the given stored PLLCFG and HFROSCCFG words, everything else
zero, and no access made yet. -/
def mkMachine (pllcfg hfrosccfg : Nat) : Machine where
  regs := fun r => match r with
    | .PLLCFG => pllcfg
    | .HFROSCCFG => hfrosccfg
    | _ => 0
  reads := fun _ => 0
  trace := []

/-- Hardware whose status bits are set from the `k`-th read on and whose
counter starts at `t0` and advances one tick per sample. -/
def hwFrom (k t0 : Nat) : Hw where
  rdy := fun n => decide (k ≤ n)
  lock := fun n => decide (k ≤ n)
  mtime := fun n => t0 + n

/-! ## Bit-level facts -/

theorem testBit_lt32 {v i : Nat} (h : v < 4294967296) (hi : v.testBit i = true) : i < 32 := by
  by_contra hge
  have h2 : v < 2 ^ i :=
    lt_of_lt_of_le h (by
      have : (2:Nat) ^ 32 ≤ 2 ^ i := Nat.pow_le_pow_right (by decide) (by omega)
      simpa using this)
  rw [Nat.testBit_lt_two_pow h2] at hi
  exact Bool.noConfusion hi

theorem testBit_not32 {v : Nat} (h : v < 4294967296) (i : Nat) :
    (not32 v).testBit i = (decide (i < 32) && !v.testBit i) := by
  have e : not32 v = 2 ^ 32 - (v + 1) := by unfold not32; omega
  rw [e]
  exact Nat.testBit_two_pow_sub_succ (by simpa using h) i

theorem and_eq_zero_testBit {a b : Nat} (h : a &&& b = 0) (i : Nat) :
    a.testBit i = true → b.testBit i = false := by
  intro ha
  have := congrArg (fun n => Nat.testBit n i) h
  simp only [Nat.testBit_and, Nat.zero_testBit, ha, Bool.true_and] at this
  exact this

theorem pack_lt (f : Field) (x : Int) : f.pack x < 4294967296 := by
  unfold Field.pack
  exact Nat.mod_lt _ (by decide)

theorem pack_testBit (f : Field) (x : Int) (i : Nat) :
    (f.pack x).testBit i = true → f.bits.testBit i = true := by
  unfold Field.pack Field.bits
  have e : (4294967296 : Nat) = 2 ^ 32 := by norm_num
  rw [e, Nat.testBit_mod_two_pow, Nat.testBit_shiftLeft, Nat.testBit_shiftLeft, Nat.testBit_and]
  intro h
  simp only [Bool.and_eq_true, decide_eq_true_eq] at h ⊢
  exact ⟨h.2.1, h.2.2.2⟩

theorem pack_zero (f : Field) : f.pack 0 = 0 := by
  simp [Field.pack, toU32]

/-- A packed value of one field has no bit in a disjoint field. -/
theorem pack_disjoint {f g : Field} (h : f.Disjoint g) (x : Int) (i : Nat) :
    (f.pack x).testBit i = true → g.bits.testBit i = false := fun hx =>
  and_eq_zero_testBit h i (pack_testBit f x i hx)

theorem Field.Disjoint.symm {f g : Field} (h : f.Disjoint g) : g.Disjoint f := by
  unfold Field.Disjoint at *
  rw [Nat.land_comm]; exact h

/-- Reading a field back: if `v` agrees with the packed `x` on the bits of the
field and the field can hold `x`, the field of `v` is `x`. -/
theorem get_eq_of_agree (f : Field) (v : Nat) (x : Int) (hx : f.Fits x)
    (hb : f.bits < 4294967296)
    (h : ∀ i, f.bits.testBit i = true → v.testBit i = (f.pack x).testBit i) :
    f.get v = x.toNat := by
  obtain ⟨h0, h1, h2⟩ := hx
  have hu : toU32 x = x.toNat := by
    unfold toU32; rw [Int.emod_eq_of_lt h0 h1]
  apply Nat.eq_of_testBit_eq
  intro i
  unfold Field.get
  rw [Nat.testBit_and, Nat.testBit_shiftRight]
  cases hm : f.mask.testBit i with
  | false =>
    have := congrArg (fun n => Nat.testBit n i) h2
    simp only [Nat.testBit_and, hm, Bool.and_false] at this
    simp [← this]
  | true =>
    have hbit : f.bits.testBit (f.shift + i) = true := by
      unfold Field.bits; simp [Nat.testBit_shiftLeft, hm]
    have hlt := testBit_lt32 hb hbit
    rw [h _ hbit]
    unfold Field.pack
    have e : (4294967296 : Nat) = 2 ^ 32 := by norm_num
    rw [e, Nat.testBit_mod_two_pow, Nat.testBit_shiftLeft, Nat.testBit_and, hu]
    simp [hlt, hm]

/-! ## Word-level facts -/

/-- Clearing the bits `B` leaves the bits `M` alone when the two are disjoint. -/
theorem not32_and {x B M : Nat} (hB : B < 4294967296) (hM : M < 4294967296)
    (h : B &&& M = 0) : (x &&& not32 B) &&& M = x &&& M := by
  apply Nat.eq_of_testBit_eq
  intro i
  have hk := and_eq_zero_testBit h i
  simp only [Nat.testBit_and, testBit_not32 hB]
  cases hMi : M.testBit i with
  | false => simp
  | true =>
    have hi := testBit_lt32 hM hMi
    cases hKi : B.testBit i with
    | false => simp [hi]
    | true => rw [hk hKi] at hMi; exact Bool.noConfusion hMi

theorem not32_and_self (x B : Nat) : (x &&& not32 B) &&& B = 0 := by
  by_cases hB : B < 4294967296
  · apply Nat.eq_of_testBit_eq
    intro i
    simp only [Nat.testBit_and, testBit_not32 hB, Nat.zero_testBit]
    cases B.testBit i <;> simp
  · have : not32 B = 0 := by unfold not32; omega
    simp [this]

theorem or_and_disj {x S M : Nat} (h : S &&& M = 0) : (x ||| S) &&& M = x &&& M := by
  rw [Nat.and_distrib_right, h, Nat.or_zero]

theorem or_and_self (x S : Nat) : (x ||| S) &&& S = S := by
  apply Nat.eq_of_testBit_eq
  intro i
  simp only [Nat.testBit_and, Nat.testBit_or]
  cases S.testBit i <;> simp

/-- A status bit laid over a word does not change the other bits. -/
theorem ovl_and {x K M : Nat} (l : Bool) (hK : K < 4294967296) (hM : M < 4294967296)
    (h : K &&& M = 0) : ovl x K l &&& M = x &&& M := by
  cases l with
  | true => simp only [ovl, if_true]; exact or_and_disj h
  | false => simp only [ovl, Bool.false_eq_true, if_false]; exact not32_and hK hM h

/-- A read shows the status bit exactly when the hardware drives it. -/
theorem ovl_and_self (x K : Nat) (l : Bool) :
    ovl x K l &&& K = if l then K else 0 := by
  cases l with
  | true => simp only [ovl, if_true]; exact or_and_self x K
  | false => simp only [ovl, Bool.false_eq_true, if_false]; exact not32_and_self x K

theorem pack_and_pack {f g : Field} (h : f.Disjoint g) (x y : Int) :
    f.pack x &&& g.pack y = 0 := by
  apply Nat.eq_of_testBit_eq
  intro i
  rw [Nat.testBit_and, Nat.zero_testBit]
  cases hx : (f.pack x).testBit i with
  | false => simp
  | true =>
    cases hy : (g.pack y).testBit i with
    | false => simp
    | true =>
      have := pack_disjoint h x i hx
      rw [pack_testBit g y i hy] at this
      exact Bool.noConfusion this

theorem pack_and_bits {f g : Field} (h : f.Disjoint g) (x : Int) :
    f.pack x &&& g.bits = 0 := by
  apply Nat.eq_of_testBit_eq
  intro i
  rw [Nat.testBit_and, Nat.zero_testBit]
  cases hx : (f.pack x).testBit i with
  | false => simp
  | true => simp [pack_disjoint h x i hx]

theorem pack_and_bits_self (f : Field) (x : Int) : f.pack x &&& f.bits = f.pack x := by
  apply Nat.eq_of_testBit_eq
  intro i
  rw [Nat.testBit_and]
  cases hx : (f.pack x).testBit i with
  | false => simp
  | true => simp [pack_testBit f x i hx]

/-- Reading a field back from a word that agrees with the packed value on the
bits of the field. -/
theorem get_eq_of_and (f : Field) (v : Nat) (x : Int) (hx : f.Fits x)
    (hb : f.bits < 4294967296) (h : v &&& f.bits = f.pack x) : f.get v = x.toNat := by
  apply get_eq_of_agree f v x hx hb
  intro i hi
  have := congrArg (fun n => Nat.testBit n i) h
  simpa [Nat.testBit_and, hi] using this

/-! ## The polling loop -/

@[simp] theorem rd_fst (L : Layout) (hw : Hw) (r : Reg) (m : Machine) :
    (rd L hw r m).1 = hwValue L hw m r := rfl

@[simp] theorem rd_snd_regs (L : Layout) (hw : Hw) (r : Reg) (m : Machine) :
    (rd L hw r m).2.regs = m.regs := rfl

@[simp] theorem rd_snd_reads (L : Layout) (hw : Hw) (r : Reg) (m : Machine) :
    (rd L hw r m).2.reads = Function.update m.reads r (m.reads r + 1) := rfl

@[simp] theorem rd_snd_trace (L : Layout) (hw : Hw) (r : Reg) (m : Machine) :
    (rd L hw r m).2.trace = m.trace ++ [Event.read r (hwValue L hw m r)] := rfl

@[simp] theorem wr_regs (r : Reg) (v : Nat) (m : Machine) :
    (wr r v m).regs = Function.update m.regs r v := rfl

@[simp] theorem wr_reads (r : Reg) (v : Nat) (m : Machine) : (wr r v m).reads = m.reads := rfl

@[simp] theorem wr_trace (r : Reg) (v : Nat) (m : Machine) :
    (wr r v m).trace = m.trace ++ [Event.write r v] := rfl

@[simp] theorem afterReads_regs (L : Layout) (hw : Hw) (m : Machine) (r : Reg) (k : Nat) :
    (afterReads L hw m r k).regs = m.regs := rfl

@[simp] theorem afterReads_reads (L : Layout) (hw : Hw) (m : Machine) (r : Reg) (k : Nat) :
    (afterReads L hw m r k).reads = Function.update m.reads r (m.reads r + k) := rfl

@[simp] theorem afterReads_trace (L : Layout) (hw : Hw) (m : Machine) (r : Reg) (k : Nat) :
    (afterReads L hw m r k).trace = m.trace ++ readsOf L hw m r k := rfl

theorem valAt_zero (L : Layout) (hw : Hw) (m : Machine) (r : Reg) :
    valAt L hw m r 0 = hwValue L hw m r := by
  cases r <;> simp [valAt, hwValue]

theorem valAt_rd (L : Layout) (hw : Hw) (m : Machine) (r : Reg) (j : Nat) :
    valAt L hw (rd L hw r m).2 r j = valAt L hw m r (j + 1) := by
  cases r <;> simp [valAt, hwValue, Nat.add_assoc, Nat.add_comm 1 j]

theorem readsOf_succ (L : Layout) (hw : Hw) (m : Machine) (r : Reg) (k : Nat) :
    readsOf L hw m r (k + 1)
      = Event.read r (hwValue L hw m r) :: readsOf L hw (rd L hw r m).2 r k := by
  unfold readsOf
  rw [List.range_succ_eq_map, List.map_cons, List.map_map, valAt_zero]
  congr 1
  apply List.map_congr_left
  intro j _
  simp [valAt_rd]

theorem afterReads_rd (L : Layout) (hw : Hw) (m : Machine) (r : Reg) (k : Nat) :
    afterReads L hw (rd L hw r m).2 r k = afterReads L hw m r (k + 1) := by
  unfold afterReads
  rw [readsOf_succ]
  simp [Nat.add_assoc, Nat.add_comm 1 k]

theorem afterReads_zero (L : Layout) (hw : Hw) (m : Machine) (r : Reg) :
    afterReads L hw m r 0 = m := by
  unfold afterReads readsOf
  simp

/-- What the polling loop does: it reads `r` some `k ≤ fuel` times and nothing
else; if it is left, the last value read stops the loop and every earlier one
does not; if the fuel runs out, all `fuel` values read keep it going. -/
theorem spin_rd (L : Layout) (hw : Hw) (r : Reg) (again : Nat → Bool) :
    ∀ (fuel : Nat) (m : Machine), ∃ k, k ≤ fuel ∧
      (spin (rd L hw r) again fuel m).1 = afterReads L hw m r k ∧
      (∀ j, j + 1 < k → again (valAt L hw m r j) = true) ∧
      ((spin (rd L hw r) again fuel m).2 = true →
        0 < k ∧ again (valAt L hw m r (k - 1)) = false) ∧
      ((spin (rd L hw r) again fuel m).2 = false →
        k = fuel ∧ ∀ j, j < k → again (valAt L hw m r j) = true) := by
  intro fuel
  induction fuel with
  | zero =>
    intro m
    exact ⟨0, le_refl _, by simp [spin, afterReads_zero], by simp, by simp [spin], by simp [spin]⟩
  | succ n ih =>
    intro m
    by_cases hc : again (rd L hw r m).1 = true
    · obtain ⟨k, hk, hm, hbefore, hdone, hout⟩ := ih (rd L hw r m).2
      have e : spin (rd L hw r) again (n + 1) m = spin (rd L hw r) again n (rd L hw r m).2 := by
        rw [spin, if_pos hc]
      have h0 : again (valAt L hw m r 0) = true := by rw [valAt_zero]; exact hc
      refine ⟨k + 1, by omega, ?_, ?_, ?_, ?_⟩
      · rw [e, hm, afterReads_rd]
      · intro j hj
        cases j with
        | zero => exact h0
        | succ j => rw [← valAt_rd]; exact hbefore j (by omega)
      · intro hd
        rw [e] at hd
        obtain ⟨hk0, hlast⟩ := hdone hd
        refine ⟨by omega, ?_⟩
        have : k + 1 - 1 = (k - 1) + 1 := by omega
        rw [this, ← valAt_rd]; exact hlast
      · intro hd
        rw [e] at hd
        obtain ⟨hkn, hall⟩ := hout hd
        refine ⟨by omega, ?_⟩
        intro j hj
        cases j with
        | zero => exact h0
        | succ j => rw [← valAt_rd]; exact hall j (by omega)
    · have e : spin (rd L hw r) again (n + 1) m = ((rd L hw r m).2, true) := by
        rw [spin, if_neg hc]
      refine ⟨1, by omega, ?_, ?_, ?_, ?_⟩
      · rw [e, ← afterReads_rd, afterReads_zero]
      · intro j hj; omega
      · intro _
        refine ⟨by omega, ?_⟩
        simp only [Nat.sub_self, valAt_zero]
        simpa using hc
      · intro hd; rw [e] at hd; exact Bool.noConfusion hd

/-! ## Running the code -/

/-- The function `use_pll` is its four parts in sequence. -/
theorem use_pll_eq (L : Layout) (hw : Hw) (fuel : Nat) (refsel bypass r f q : Int)
    (m : Machine) :
    use_pll L hw fuel refsel bypass r f q m =
      if (pll_head L hw fuel m).2 then
        if bypass ≠ 0 then
          (pll_select L hw (pll_bypass L refsel (pll_head L hw fuel m).1), true)
        else if (pll_nobypass L hw fuel refsel r f q (pll_head L hw fuel m).1).2 then
          (pll_select L hw (pll_nobypass L hw fuel refsel r f q (pll_head L hw fuel m).1).1, true)
        else ((pll_nobypass L hw fuel refsel r f q (pll_head L hw fuel m).1).1, false)
      else ((pll_head L hw fuel m).1, false) := by
  unfold use_pll pll_head pll_select pll_bypass pll_nobypass bypassWord configWord passThrough
  by_cases hb : bypass = 0
  · simp only [hb, ne_eq, not_true_eq_false, if_false]
  · simp only [hb, ne_eq, not_false_eq_true, if_true]

/-- What `use_hfrosc` does: it writes HFROSCCFG, reads it `k ≤ fuel` times, and,
once a value read shows the ready bit, reads PLLCFG and writes it back with the
select bit cleared. -/
theorem use_hfrosc_run (L : Layout) (hw : Hw) (fuel : Nat) (div trim : Int) (m : Machine) :
    ∃ k, k ≤ fuel ∧
      (∀ j, j + 1 < k →
        valAt L hw (wr .HFROSCCFG (hfroscWord L div trim) m) .HFROSCCFG j &&& ROSC_RDY L 1 = 0) ∧
      ((use_hfrosc L hw fuel div trim m).2 = true →
        0 < k ∧
        valAt L hw (wr .HFROSCCFG (hfroscWord L div trim) m) .HFROSCCFG (k - 1)
          &&& ROSC_RDY L 1 ≠ 0 ∧
        (use_hfrosc L hw fuel div trim m).1 =
          wr .PLLCFG ((rd L hw .PLLCFG (hfroscPolled L hw div trim m k)).1 &&& not32 (PLL_SEL L 1))
            (rd L hw .PLLCFG (hfroscPolled L hw div trim m k)).2) ∧
      ((use_hfrosc L hw fuel div trim m).2 = false →
        k = fuel ∧
        (∀ j, j < k →
          valAt L hw (wr .HFROSCCFG (hfroscWord L div trim) m) .HFROSCCFG j &&& ROSC_RDY L 1 = 0) ∧
        (use_hfrosc L hw fuel div trim m).1 = hfroscPolled L hw div trim m k) := by
  obtain ⟨k, hk, hm, hbefore, hdone, hout⟩ :=
    spin_rd L hw .HFROSCCFG (fun v => v &&& ROSC_RDY L 1 == 0) fuel
      (wr .HFROSCCFG (hfroscWord L div trim) m)
  refine ⟨k, hk, ?_, ?_, ?_⟩
  · intro j hj
    simpa using hbefore j hj
  · intro hd
    have hw2 : (spin (rd L hw .HFROSCCFG) (fun v => v &&& ROSC_RDY L 1 == 0) fuel
        (wr .HFROSCCFG (hfroscWord L div trim) m)).2 = true := by
      by_contra hne
      simp only [use_hfrosc, hfroscWord] at hd
      rw [if_neg (by simpa [hfroscWord] using hne)] at hd
      exact Bool.noConfusion hd
    obtain ⟨hk0, hlast⟩ := hdone hw2
    refine ⟨hk0, by simpa using hlast, ?_⟩
    unfold hfroscPolled
    rw [← hm]
    simp only [use_hfrosc, hfroscWord] at hw2 ⊢
    rw [if_pos hw2]
  · intro hd
    have hw2 : (spin (rd L hw .HFROSCCFG) (fun v => v &&& ROSC_RDY L 1 == 0) fuel
        (wr .HFROSCCFG (hfroscWord L div trim) m)).2 = false := by
      cases hs : (spin (rd L hw .HFROSCCFG) (fun v => v &&& ROSC_RDY L 1 == 0) fuel
        (wr .HFROSCCFG (hfroscWord L div trim) m)).2 with
      | false => rfl
      | true =>
        simp only [use_hfrosc, hfroscWord] at hd hs
        rw [if_pos hs] at hd
        exact Bool.noConfusion hd
    obtain ⟨hkf, hall⟩ := hout hw2
    refine ⟨hkf, fun j hj => by simpa using hall j hj, ?_⟩
    unfold hfroscPolled
    rw [← hm]
    simp only [use_hfrosc, hfroscWord] at hw2 ⊢
    rw [if_neg (by simp [hw2])]

/-- What the non-bypass branch does after clearing bypass: it samples the
counter `k2` more times, leaving when the difference to `now` reaches 4, then
reads PLLCFG `k3` times, leaving when a value read shows the lock bit. -/
theorem pll_nobypass_run (L : Layout) (hw : Hw) (fuel : Nat) (refsel r f q : Int)
    (m : Machine) :
    ∃ k2 k3, k2 ≤ fuel ∧ k3 ≤ fuel ∧
      (pll_nobypass L hw fuel refsel r f q m).1 =
        afterReads L hw (afterReads L hw (pll_settling L hw refsel r f q m) .MTIME k2)
          .PLLCFG k3 ∧
      (∀ j, j + 1 < k2 →
        tickDiff (valAt L hw (pll_settling L hw refsel r f q m) .MTIME j)
          (pll_now L hw refsel r f q m) < 4) ∧
      (∀ j, j + 1 < k3 →
        valAt L hw (afterReads L hw (pll_settling L hw refsel r f q m) .MTIME k2) .PLLCFG j
          &&& PLL_LOCK L 1 = 0) ∧
      ((pll_nobypass L hw fuel refsel r f q m).2 = true →
        0 < k2 ∧
        4 ≤ tickDiff (valAt L hw (pll_settling L hw refsel r f q m) .MTIME (k2 - 1))
          (pll_now L hw refsel r f q m) ∧
        0 < k3 ∧
        valAt L hw (afterReads L hw (pll_settling L hw refsel r f q m) .MTIME k2) .PLLCFG
          (k3 - 1) &&& PLL_LOCK L 1 ≠ 0) ∧
      ((pll_nobypass L hw fuel refsel r f q m).2 = false →
        (k2 = fuel ∧ k3 = 0 ∧
          ∀ j, j < k2 →
            tickDiff (valAt L hw (pll_settling L hw refsel r f q m) .MTIME j)
              (pll_now L hw refsel r f q m) < 4) ∨
        (0 < k2 ∧
          4 ≤ tickDiff (valAt L hw (pll_settling L hw refsel r f q m) .MTIME (k2 - 1))
            (pll_now L hw refsel r f q m) ∧
          k3 = fuel ∧
          ∀ j, j < k3 →
            valAt L hw (afterReads L hw (pll_settling L hw refsel r f q m) .MTIME k2) .PLLCFG j
              &&& PLL_LOCK L 1 = 0)) := by
  have hdef : pll_nobypass L hw fuel refsel r f q m =
      if (spin (rd L hw .MTIME)
            (fun t => decide (tickDiff t (pll_now L hw refsel r f q m) < 4)) fuel
            (pll_settling L hw refsel r f q m)).2 then
        spin (rd L hw .PLLCFG) (fun v => v &&& PLL_LOCK L 1 == 0) fuel
          (spin (rd L hw .MTIME)
            (fun t => decide (tickDiff t (pll_now L hw refsel r f q m) < 4)) fuel
            (pll_settling L hw refsel r f q m)).1
      else ((spin (rd L hw .MTIME)
            (fun t => decide (tickDiff t (pll_now L hw refsel r f q m) < 4)) fuel
            (pll_settling L hw refsel r f q m)).1, false) := rfl
  obtain ⟨k2, hk2, hm2, hb2, hd2, ho2⟩ :=
    spin_rd L hw .MTIME (fun t => decide (tickDiff t (pll_now L hw refsel r f q m) < 4)) fuel
      (pll_settling L hw refsel r f q m)
  cases hw2 : (spin (rd L hw .MTIME)
      (fun t => decide (tickDiff t (pll_now L hw refsel r f q m) < 4)) fuel
      (pll_settling L hw refsel r f q m)).2 with
  | false =>
    obtain ⟨hkf, hall⟩ := ho2 hw2
    rw [hdef, hw2]
    refine ⟨k2, 0, hk2, Nat.zero_le _, ?_, ?_, ?_, ?_, ?_⟩
    · simp only [Bool.false_eq_true, if_false]; rw [hm2, afterReads_zero]
    · intro j hj; simpa using hb2 j hj
    · intro j hj; omega
    · intro h; simp at h
    · intro _
      exact Or.inl ⟨hkf, rfl, fun j hj => by simpa using hall j hj⟩
  | true =>
    obtain ⟨hk0, hlast⟩ := hd2 hw2
    rw [hdef, hw2, hm2]
    simp only [if_true]
    obtain ⟨k3, hk3, hm3, hb3, hd3, ho3⟩ :=
      spin_rd L hw .PLLCFG (fun v => v &&& PLL_LOCK L 1 == 0) fuel
        (afterReads L hw (pll_settling L hw refsel r f q m) .MTIME k2)
    refine ⟨k2, k3, hk2, hk3, hm3, ?_, ?_, ?_, ?_⟩
    · intro j hj; simpa using hb2 j hj
    · intro j hj; simpa using hb3 j hj
    · intro h
      obtain ⟨hk30, hl3⟩ := hd3 h
      exact ⟨hk0, by simpa using hlast, hk30, by simpa using hl3⟩
    · intro h
      obtain ⟨hk3f, hall3⟩ := ho3 h
      exact Or.inr ⟨hk0, by simpa using hlast, hk3f, fun j hj => by simpa using hall3 j hj⟩

/-! ## Well-formed layouts -/

theorem wf_unpack {L : Layout} (h : L.WF) :
    (((L.pll_r.bits < 4294967296 ∧ L.pll_f.bits < 4294967296 ∧ L.pll_q.bits < 4294967296 ∧
        L.pll_sel.bits < 4294967296 ∧ L.pll_refsel.bits < 4294967296 ∧
        L.pll_bypass.bits < 4294967296 ∧ L.pll_lock.bits < 4294967296) ∧
      L.rosc_div.bits < 4294967296 ∧ L.rosc_trim.bits < 4294967296 ∧
        L.rosc_en.bits < 4294967296 ∧ L.rosc_rdy.bits < 4294967296) ∧
      L.pll_final_div.bits < 4294967296 ∧ L.pll_final_div_by_1.bits < 4294967296) ∧
    ((L.pll_r.Disjoint L.pll_f ∧ L.pll_r.Disjoint L.pll_q ∧ L.pll_r.Disjoint L.pll_sel ∧
        L.pll_r.Disjoint L.pll_refsel ∧ L.pll_r.Disjoint L.pll_bypass ∧
        L.pll_r.Disjoint L.pll_lock) ∧
      (L.pll_f.Disjoint L.pll_q ∧ L.pll_f.Disjoint L.pll_sel ∧ L.pll_f.Disjoint L.pll_refsel ∧
        L.pll_f.Disjoint L.pll_bypass ∧ L.pll_f.Disjoint L.pll_lock) ∧
      (L.pll_q.Disjoint L.pll_sel ∧ L.pll_q.Disjoint L.pll_refsel ∧
        L.pll_q.Disjoint L.pll_bypass ∧ L.pll_q.Disjoint L.pll_lock) ∧
      (L.pll_sel.Disjoint L.pll_refsel ∧ L.pll_sel.Disjoint L.pll_bypass ∧
        L.pll_sel.Disjoint L.pll_lock) ∧
      (L.pll_refsel.Disjoint L.pll_bypass ∧ L.pll_refsel.Disjoint L.pll_lock) ∧
      L.pll_bypass.Disjoint L.pll_lock) ∧
    ((L.rosc_div.Disjoint L.rosc_trim ∧ L.rosc_div.Disjoint L.rosc_en ∧
        L.rosc_div.Disjoint L.rosc_rdy) ∧
      (L.rosc_trim.Disjoint L.rosc_en ∧ L.rosc_trim.Disjoint L.rosc_rdy) ∧
      L.rosc_en.Disjoint L.rosc_rdy) ∧
    L.pll_final_div.Disjoint L.pll_final_div_by_1 ∧
    L.pll_sel.pack 1 ≠ 0 ∧ L.pll_bypass.pack 1 ≠ 0 ∧ L.pll_lock.pack 1 ≠ 0 ∧
    L.rosc_en.pack 1 ≠ 0 ∧ L.rosc_rdy.pack 1 ≠ 0 ∧ L.pll_final_div_by_1.pack 1 ≠ 0 := by
  simpa only [Layout.WF, Layout.pllcfgFields, Layout.hfroscFields, Layout.plldivFields,
    List.pairwise_cons, List.mem_cons, List.mem_append, List.mem_singleton, forall_eq_or_imp,
    forall_eq, List.not_mem_nil, List.Pairwise.nil, or_false, false_or, or_imp, forall_and,
    and_true, IsEmpty.forall_iff, implies_true, true_and, PLL_SEL, PLL_BYPASS, PLL_LOCK,
    ROSC_EN, ROSC_RDY, PLL_FINAL_DIV_BY_1] using h

theorem pack_and_pack_symm {f g : Field} (h : g.Disjoint f) (x y : Int) :
    f.pack x &&& g.pack y = 0 := pack_and_pack h.symm x y

theorem pack_and_bits_symm {f g : Field} (h : g.Disjoint f) (x : Int) :
    f.pack x &&& g.bits = 0 := pack_and_bits h.symm x

/-- The configuration word of the non-bypass branch has the select bit clear. -/
theorem configWord_and_sel {L : Layout} (hL : L.WF) (refsel r f q : Int) :
    configWord L refsel r f q &&& PLL_SEL L 1 = 0 := by
  have hU := wf_unpack hL
  simp [configWord, PLL_SEL, PLL_REFSEL, PLL_BYPASS, PLL_R, PLL_F, PLL_Q,
    Nat.and_distrib_right, pack_and_pack, pack_and_pack_symm, hU]

theorem bypassWord_and_sel {L : Layout} (hL : L.WF) (refsel : Int) :
    bypassWord L refsel &&& PLL_SEL L 1 = 0 := by
  have hU := wf_unpack hL
  simp [bypassWord, PLL_SEL, PLL_REFSEL, PLL_BYPASS,
    Nat.and_distrib_right, pack_and_pack, pack_and_pack_symm, hU]

/-- A read of PLLCFG shows the stored select bit. -/
theorem read_pllcfg_and_sel {L : Layout} (hL : L.WF) (x : Nat) (l : Bool) :
    ovl x (PLL_LOCK L 1) l &&& PLL_SEL L 1 = x &&& PLL_SEL L 1 := by
  have hU := wf_unpack hL
  apply ovl_and l (pack_lt _ _) (pack_lt _ _)
  simp [PLL_SEL, PLL_LOCK, pack_and_pack, pack_and_pack_symm, hU]

theorem read_pllcfg_and_bypass {L : Layout} (hL : L.WF) (x : Nat) (l : Bool) :
    ovl x (PLL_LOCK L 1) l &&& PLL_BYPASS L 1 = x &&& PLL_BYPASS L 1 := by
  have hU := wf_unpack hL
  apply ovl_and l (pack_lt _ _) (pack_lt _ _)
  simp [PLL_BYPASS, PLL_LOCK, pack_and_pack, pack_and_pack_symm, hU]

/-! ## The oscillator controller -/

theorem readsOf_hfrosc (L : Layout) (hw : Hw) (c : Nat) (m : Machine) (k : Nat) :
    readsOf L hw (wr .HFROSCCFG c m) .HFROSCCFG k =
      (List.range k).map (fun j =>
        Event.read .HFROSCCFG (ovl c (ROSC_RDY L 1) (hw.rdy (m.reads .HFROSCCFG + j)))) := by
  simp [readsOf, valAt, hwValue]

theorem valAt_hfrosc (L : Layout) (hw : Hw) (c : Nat) (m : Machine) (j : Nat) :
    valAt L hw (wr .HFROSCCFG c m) .HFROSCCFG j =
      ovl c (ROSC_RDY L 1) (hw.rdy (m.reads .HFROSCCFG + j)) := by
  simp [valAt, hwValue]

/-- A value read shows a status bit exactly when the hardware drives it. -/
theorem ovl_shows {K : Nat} (hK : K ≠ 0) (x : Nat) (l : Bool) :
    ovl x K l &&& K ≠ 0 ↔ l = true := by
  rw [ovl_and_self]
  cases l <;> simp [hK]

theorem ovl_hides {K : Nat} (hK : K ≠ 0) (x : Nat) (l : Bool) :
    ovl x K l &&& K = 0 ↔ l = false := by
  rw [ovl_and_self]
  cases l <;> simp [hK]

theorem hfroscWord_subset {L : Layout} (hL : L.WF) (div trim : Int) :
    hfroscWord L div trim &&&
      not32 (L.rosc_div.bits ||| L.rosc_trim.bits ||| L.rosc_en.bits) = 0 := by
  have hU := wf_unpack hL
  have hlt : L.rosc_div.bits ||| L.rosc_trim.bits ||| L.rosc_en.bits < 4294967296 := by
    have e : (4294967296 : Nat) = 2 ^ 32 := by norm_num
    rw [e]
    apply Nat.or_lt_two_pow
    · apply Nat.or_lt_two_pow
      · rw [← e]; exact hU.1.1.2.1
      · rw [← e]; exact hU.1.1.2.2.1
    · rw [← e]; exact hU.1.1.2.2.2.1
  apply Nat.eq_of_testBit_eq
  intro i
  simp only [hfroscWord, ROSC_DIV, ROSC_TRIM, ROSC_EN, Nat.testBit_and, Nat.testBit_or,
    testBit_not32 hlt, Nat.zero_testBit]
  have h1 := pack_testBit L.rosc_div div i
  have h2 := pack_testBit L.rosc_trim trim i
  have h3 := pack_testBit L.rosc_en 1 i
  cases ha : (L.rosc_div.pack div).testBit i <;>
  cases hb : (L.rosc_trim.pack trim).testBit i <;>
  cases hc : (L.rosc_en.pack 1).testBit i <;>
  simp_all

/-- The call `use_hfrosc` returns exactly when one of the first `fuel` readings
of HFROSCCFG has the ready bit set. -/
theorem use_hfrosc_done_iff {L : Layout} (hL : L.WF) (hw : Hw) (fuel : Nat) (div trim : Int)
    (m : Machine) :
    (use_hfrosc L hw fuel div trim m).2 = true ↔
      ∃ j, j < fuel ∧ hw.rdy (m.reads .HFROSCCFG + j) = true := by
  have hU := wf_unpack hL
  have hrdy : ROSC_RDY L 1 ≠ 0 := by simpa [ROSC_RDY] using hU.2.2.2.2.2.2.2.2.1
  obtain ⟨k, hk, hbefore, hdone, hout⟩ := use_hfrosc_run L hw fuel div trim m
  simp only [valAt_hfrosc, ovl_hides hrdy, ovl_shows hrdy] at hbefore hdone hout
  constructor
  · intro hres
    obtain ⟨hk0, hlast, _⟩ := hdone hres
    exact ⟨k - 1, by omega, hlast⟩
  · rintro ⟨j, hj, hjr⟩
    by_contra hne
    have hres : (use_hfrosc L hw fuel div trim m).2 = false := by simpa using hne
    obtain ⟨hkf, hall, _⟩ := hout hres
    have := hall j (by omega)
    rw [hjr] at this
    exact Bool.noConfusion this

/-- The number of PLLCFG reads `use_hfrosc` makes is at most one, and it reads
no counter sample. -/
theorem use_hfrosc_reads (L : Layout) (hw : Hw) (fuel : Nat) (div trim : Int) (m : Machine) :
    (use_hfrosc L hw fuel div trim m).1.reads .PLLCFG ≤ m.reads .PLLCFG + 1 ∧
    m.reads .PLLCFG ≤ (use_hfrosc L hw fuel div trim m).1.reads .PLLCFG ∧
    ((use_hfrosc L hw fuel div trim m).2 = true →
      (use_hfrosc L hw fuel div trim m).1.reads .PLLCFG = m.reads .PLLCFG + 1) ∧
    (use_hfrosc L hw fuel div trim m).1.reads .MTIME = m.reads .MTIME := by
  obtain ⟨k, hk, -, hdone, hout⟩ := use_hfrosc_run L hw fuel div trim m
  cases hres : (use_hfrosc L hw fuel div trim m).2 with
  | true =>
    obtain ⟨-, -, hm⟩ := hdone hres
    rw [hm]; simp [hfroscPolled]
  | false =>
    obtain ⟨-, -, hm⟩ := hout hres
    rw [hm]; simp [hfroscPolled]

/-- The word `use_hfrosc` writes: divider and trim fields as given, enable bit
set. -/
theorem hfroscWord_fields {L : Layout} (hL : L.WF) (div trim : Int)
    (hd : L.rosc_div.Fits div) (ht : L.rosc_trim.Fits trim) :
    L.rosc_div.get (hfroscWord L div trim) = div.toNat ∧
    L.rosc_trim.get (hfroscWord L div trim) = trim.toNat ∧
    hfroscWord L div trim &&& ROSC_EN L 1 ≠ 0 := by
  have hU := wf_unpack hL
  have hen : ROSC_EN L 1 ≠ 0 := by simpa [ROSC_EN] using hU.2.2.2.2.2.2.2.1
  refine ⟨?_, ?_, ?_⟩
  · apply get_eq_of_and _ _ _ hd hU.1.1.2.1
    simp [hfroscWord, ROSC_DIV, ROSC_TRIM, ROSC_EN, Nat.and_distrib_right, pack_and_bits,
      pack_and_bits_symm, pack_and_bits_self, hU]
  · apply get_eq_of_and _ _ _ ht hU.1.1.2.2.1
    simp [hfroscWord, ROSC_DIV, ROSC_TRIM, ROSC_EN, Nat.and_distrib_right, pack_and_bits,
      pack_and_bits_symm, pack_and_bits_self, hU]
  · have : hfroscWord L div trim &&& ROSC_EN L 1 = ROSC_EN L 1 := by
      simp [hfroscWord, ROSC_DIV, ROSC_TRIM, ROSC_EN, Nat.and_distrib_right, pack_and_pack,
        pack_and_pack_symm, hU]
    rw [this]; exact hen

/-- The registers after `use_hfrosc`: HFROSCCFG holds the word written, PLLCFG
is changed only on return, and no other register is changed. -/
theorem use_hfrosc_regs (L : Layout) (hw : Hw) (fuel : Nat) (div trim : Int) (m : Machine) :
    (use_hfrosc L hw fuel div trim m).1.regs .HFROSCCFG = hfroscWord L div trim ∧
    (∀ r, r ≠ Reg.HFROSCCFG → r ≠ Reg.PLLCFG →
      (use_hfrosc L hw fuel div trim m).1.regs r = m.regs r) ∧
    ((use_hfrosc L hw fuel div trim m).2 = true →
      (use_hfrosc L hw fuel div trim m).1.regs .PLLCFG =
        ovl (m.regs .PLLCFG) (PLL_LOCK L 1) (hw.lock (m.reads .PLLCFG))
          &&& not32 (PLL_SEL L 1)) ∧
    ((use_hfrosc L hw fuel div trim m).2 = false →
      (use_hfrosc L hw fuel div trim m).1.regs .PLLCFG = m.regs .PLLCFG) := by
  obtain ⟨k, -, -, hdone, hout⟩ := use_hfrosc_run L hw fuel div trim m
  cases hres : (use_hfrosc L hw fuel div trim m).2 with
  | true =>
    rw [(hdone hres).2.2]
    refine ⟨by simp [hfroscPolled], ?_, fun _ => by simp [hfroscPolled, hwValue],
      fun h => by simp at h⟩
    intro r h1 h2
    simp [hfroscPolled, h1, h2]
  | false =>
    rw [(hout hres).2.2]
    refine ⟨by simp [hfroscPolled], ?_, fun h => by simp at h, fun _ => by simp [hfroscPolled]⟩
    intro r h1 h2
    simp [hfroscPolled, h1]

/-! ## The PLL controller: source check and bypass branch -/

/-- With the stored select bit clear, the source check is one read of PLLCFG. -/
theorem pll_head_clear {L : Layout} (hL : L.WF) (hw : Hw) (fuel : Nat) (m : Machine)
    (h : m.regs .PLLCFG &&& PLL_SEL L 1 = 0) :
    pll_head L hw fuel m = ((rd L hw .PLLCFG m).2, true) := by
  unfold pll_head
  have : ¬ ((rd L hw .PLLCFG m).1 &&& PLL_SEL L 1 ≠ 0) := by
    simp only [rd_fst, hwValue]
    rw [read_pllcfg_and_sel hL, h]
    simp
  simp only []
  rw [if_neg this]

/-- With the stored select bit set, the source check runs `use_hfrosc(4, 16)`. -/
theorem pll_head_set {L : Layout} (hL : L.WF) (hw : Hw) (fuel : Nat) (m : Machine)
    (h : m.regs .PLLCFG &&& PLL_SEL L 1 ≠ 0) :
    pll_head L hw fuel m = use_hfrosc L hw fuel 4 16 (rd L hw .PLLCFG m).2 := by
  unfold pll_head
  have : (rd L hw .PLLCFG m).1 &&& PLL_SEL L 1 ≠ 0 := by
    simp only [rd_fst, hwValue]
    rw [read_pllcfg_and_sel hL]; exact h
  simp only []
  rw [if_pos this]

theorem use_pll_bypass (L : Layout) (hw : Hw) (fuel : Nat) (refsel bypass r f q : Int)
    (m : Machine) (hb : bypass ≠ 0) :
    use_pll L hw fuel refsel bypass r f q m =
      if (pll_head L hw fuel m).2 then
        (pll_select L hw (pll_bypass L refsel (pll_head L hw fuel m).1), true)
      else ((pll_head L hw fuel m).1, false) := by
  rw [use_pll_eq]
  simp [hb]

theorem use_pll_nobypass (L : Layout) (hw : Hw) (fuel : Nat) (refsel r f q : Int)
    (m : Machine) :
    use_pll L hw fuel refsel 0 r f q m =
      if (pll_head L hw fuel m).2 then
        if (pll_nobypass L hw fuel refsel r f q (pll_head L hw fuel m).1).2 then
          (pll_select L hw (pll_nobypass L hw fuel refsel r f q (pll_head L hw fuel m).1).1, true)
        else ((pll_nobypass L hw fuel refsel r f q (pll_head L hw fuel m).1).1, false)
      else ((pll_head L hw fuel m).1, false) := by
  rw [use_pll_eq]
  simp

/-- C7, counterexample: in a bypass call (stored PLLCFG 0, no lock) the write
of PLLDIV is followed by a further write, of PLLCFG with the select bit set,
and the select bit on return differs from the one written with the bypass
bit. -/
theorem use_pll_bypass_writes_after_plldiv :
    ¬ (∀ pre v post,
        (use_pll fe310 (hwFrom 9 0) 0 0 1 1 31 1 (mkMachine 0 0)).1.trace
            = pre ++ Event.write .PLLDIV v :: post →
          ∀ r w, Event.write r w ∉ post) ∧
    (use_pll fe310 (hwFrom 9 0) 0 0 1 1 31 1 (mkMachine 0 0)).1.regs .PLLCFG &&& PLL_SEL fe310 1
      ≠ bypassWord fe310 0 &&& PLL_SEL fe310 1 := by
  constructor
  · intro h
    have e : (use_pll fe310 (hwFrom 9 0) 0 0 1 1 31 1 (mkMachine 0 0)).1.trace =
        [Event.read .PLLCFG 0, Event.write .PLLCFG 262144] ++ Event.write .PLLDIV 256 ::
          [Event.read .PLLCFG 262144, Event.write .PLLCFG 327680] := by decide
    exact h _ _ _ e .PLLCFG 327680 (by simp)
  · decide

/-- C7, amended: in a bypass call, once the source check is over, `use_pll`
writes the bypass word to PLLCFG and the pass-through word to PLLDIV, makes no
lock wait, and then performs one more read-modify-write of PLLCFG that sets
the select bit; the word written with the bypass bit has the select bit clear
and the stored word on return has it set. -/
theorem use_pll_bypass_selects_without_wait (L : Layout) (hL : L.WF) (hw : Hw) (fuel : Nat)
    (refsel bypass r f q : Int) (m : Machine) (hb : bypass ≠ 0) :
    (use_pll L hw fuel refsel bypass r f q m).2 = (pll_head L hw fuel m).2 ∧
    (use_pll L hw fuel refsel bypass r f q m).1.trace =
      (pll_head L hw fuel m).1.trace ++
        (if (pll_head L hw fuel m).2 then
          [Event.write .PLLCFG (bypassWord L refsel),
           Event.write .PLLDIV (passThrough L),
           Event.read .PLLCFG (ovl (bypassWord L refsel) (PLL_LOCK L 1)
             (hw.lock ((pll_head L hw fuel m).1.reads .PLLCFG))),
           Event.write .PLLCFG (ovl (bypassWord L refsel) (PLL_LOCK L 1)
             (hw.lock ((pll_head L hw fuel m).1.reads .PLLCFG)) ||| PLL_SEL L 1)]
         else []) ∧
    bypassWord L refsel &&& PLL_SEL L 1 = 0 ∧
    ((use_pll L hw fuel refsel bypass r f q m).2 = true →
      (use_pll L hw fuel refsel bypass r f q m).1.regs .PLLCFG &&& PLL_SEL L 1 ≠ 0) := by
  have hU := wf_unpack hL
  have hsel : PLL_SEL L 1 ≠ 0 := by simpa [PLL_SEL] using hU.2.2.2.2.1
  rw [use_pll_bypass L hw fuel refsel bypass r f q m hb]
  cases hh : (pll_head L hw fuel m).2 with
  | false => simp [bypassWord_and_sel hL]
  | true =>
    simp [pll_select, pll_bypass, hwValue, bypassWord_and_sel hL, or_and_self, hsel]

/-- C7, a concrete bypass call on the sample layout. -/
theorem use_pll_bypass_selects_without_wait_witness :
    fe310.WF ∧ (1 : Int) ≠ 0 ∧
    (use_pll fe310 (hwFrom 9 0) 0 0 1 1 31 1 (mkMachine 0 0)).1.regs .PLLCFG
      &&& PLL_SEL fe310 1 ≠ 0 :=
  ⟨by decide, by decide,
   (use_pll_bypass_selects_without_wait fe310 (by decide) (hwFrom 9 0) 0 0 1 1 31 1
      (mkMachine 0 0) (by decide)).2.2.2 (by decide)⟩

/-! ## Independence of the lock readings -/

theorem and_not32_self (K : Nat) : K &&& not32 K = 0 := by
  have := not32_and_self K K
  rw [Nat.and_assoc, Nat.and_comm (not32 K) K, ← Nat.and_assoc, Nat.and_self] at this
  exact this

theorem ovl_drop (x K : Nat) (l : Bool) : ovl x K l &&& not32 K = x &&& not32 K := by
  cases l with
  | true => simp only [ovl, if_true]; rw [Nat.and_distrib_right, and_not32_self, Nat.or_zero]
  | false =>
    simp only [ovl, Bool.false_eq_true, if_false]
    rw [Nat.and_assoc, Nat.and_self]

theorem sbl_rd_pllcfg (L : Layout) (hw : Hw) (lock : Nat → Bool) {a b : Machine}
    (h : SameButLock L a b) :
    (rd L (hw.withLock lock) .PLLCFG a).1 &&& not32 (PLL_LOCK L 1) =
        (rd L hw .PLLCFG b).1 &&& not32 (PLL_LOCK L 1) ∧
      SameButLock L (rd L (hw.withLock lock) .PLLCFG a).2 (rd L hw .PLLCFG b).2 := by
  obtain ⟨h1, h2, h3, h4⟩ := h
  have hv : hwValue L (hw.withLock lock) a .PLLCFG &&& not32 (PLL_LOCK L 1) =
      hwValue L hw b .PLLCFG &&& not32 (PLL_LOCK L 1) := by
    simp only [hwValue, ovl_drop]; exact h2
  refine ⟨hv, h1, h2, ?_, ?_⟩
  · simp [h3]
  · simp [h4, Event.dropLock, hv]

theorem sbl_rd_other (L : Layout) (hw : Hw) (lock : Nat → Bool) {a b : Machine} (r : Reg)
    (hr : r ≠ .PLLCFG) (h : SameButLock L a b) :
    (rd L (hw.withLock lock) r a).1 = (rd L hw r b).1 ∧
      SameButLock L (rd L (hw.withLock lock) r a).2 (rd L hw r b).2 := by
  obtain ⟨h1, h2, h3, h4⟩ := h
  have hv : hwValue L (hw.withLock lock) a r = hwValue L hw b r := by
    cases r <;> simp_all [hwValue, Hw.withLock]
  refine ⟨hv, h1, h2, ?_, ?_⟩
  · simp [h3]
  · simp only [rd_snd_trace, List.map_append, h4, hv]

theorem sbl_wr_pllcfg (L : Layout) {a b : Machine} {v w : Nat}
    (hv : v &&& not32 (PLL_LOCK L 1) = w &&& not32 (PLL_LOCK L 1)) (h : SameButLock L a b) :
    SameButLock L (wr .PLLCFG v a) (wr .PLLCFG w b) := by
  obtain ⟨h1, h2, h3, h4⟩ := h
  refine ⟨?_, ?_, h3, ?_⟩
  · intro r hr; simp [hr, h1 r hr]
  · simpa using hv
  · simp [h4, Event.dropLock, hv]

theorem sbl_wr_other (L : Layout) {a b : Machine} (r : Reg) (v : Nat) (hr : r ≠ .PLLCFG)
    (h : SameButLock L a b) : SameButLock L (wr r v a) (wr r v b) := by
  obtain ⟨h1, h2, h3, h4⟩ := h
  refine ⟨?_, ?_, h3, ?_⟩
  · intro r2 hr2
    by_cases e : r2 = r
    · subst e; simp
    · simp [e, h1 r2 hr2]
  · simpa [Function.update_noteq (Ne.symm hr)] using h2
  · simp only [wr_trace, List.map_append, h4]

theorem sbl_spin (L : Layout) (hw : Hw) (lock : Nat → Bool) (r : Reg) (hr : r ≠ .PLLCFG)
    (again : Nat → Bool) :
    ∀ (fuel : Nat) (a b : Machine), SameButLock L a b →
      (spin (rd L (hw.withLock lock) r) again fuel a).2 = (spin (rd L hw r) again fuel b).2 ∧
      SameButLock L (spin (rd L (hw.withLock lock) r) again fuel a).1
        (spin (rd L hw r) again fuel b).1 := by
  intro fuel
  induction fuel with
  | zero => intro a b h; exact ⟨rfl, h⟩
  | succ n ih =>
    intro a b h
    obtain ⟨hv, hs⟩ := sbl_rd_other L hw lock r hr h
    rw [spin, spin, hv]
    by_cases hc : again (rd L hw r b).1 = true
    · rw [if_pos hc, if_pos hc]; exact ih _ _ hs
    · rw [if_neg hc, if_neg hc]; exact ⟨rfl, hs⟩

theorem sbl_use_hfrosc (L : Layout) (hw : Hw) (lock : Nat → Bool) (fuel : Nat)
    (div trim : Int) {a b : Machine} (h : SameButLock L a b) :
    (use_hfrosc L (hw.withLock lock) fuel div trim a).2 = (use_hfrosc L hw fuel div trim b).2 ∧
      SameButLock L (use_hfrosc L (hw.withLock lock) fuel div trim a).1
        (use_hfrosc L hw fuel div trim b).1 := by
  obtain ⟨hd, hs⟩ := sbl_spin L hw lock .HFROSCCFG (by decide)
    (fun v => v &&& ROSC_RDY L 1 == 0) fuel _ _
    (sbl_wr_other L .HFROSCCFG (ROSC_DIV L div ||| ROSC_TRIM L trim ||| ROSC_EN L 1)
      (by decide) h)
  simp only [use_hfrosc]
  rw [hd]
  cases hc : (spin (rd L hw .HFROSCCFG) (fun v => v &&& ROSC_RDY L 1 == 0) fuel
      (wr .HFROSCCFG (ROSC_DIV L div ||| ROSC_TRIM L trim ||| ROSC_EN L 1) b)).2 with
  | false => simp only [Bool.false_eq_true, if_false]; exact ⟨trivial, hs⟩
  | true =>
    simp only [if_true, true_and]
    obtain ⟨hv, hs2⟩ := sbl_rd_pllcfg L hw lock hs
    apply sbl_wr_pllcfg L _ hs2
    rw [Nat.and_assoc, Nat.and_comm (not32 (PLL_SEL L 1)), ← Nat.and_assoc, hv,
      Nat.and_assoc, Nat.and_comm (not32 (PLL_LOCK L 1)), ← Nat.and_assoc]

/-- The select bit of a word is decided by the word with the lock position
blanked. -/
theorem sel_of_drop {L : Layout} (hL : L.WF) {v w : Nat}
    (h : v &&& not32 (PLL_LOCK L 1) = w &&& not32 (PLL_LOCK L 1)) :
    v &&& PLL_SEL L 1 = w &&& PLL_SEL L 1 := by
  have hU := wf_unpack hL
  have hd : PLL_LOCK L 1 &&& PLL_SEL L 1 = 0 := by
    simp [PLL_SEL, PLL_LOCK, pack_and_pack, pack_and_pack_symm, hU]
  have hK : PLL_LOCK L 1 < 4294967296 := pack_lt L.pll_lock 1
  have hS : PLL_SEL L 1 < 4294967296 := pack_lt L.pll_sel 1
  have e1 := not32_and (x := v) hK hS hd
  have e2 := not32_and (x := w) hK hS hd
  rw [← e1, h, e2]

theorem sbl_pll_head {L : Layout} (hL : L.WF) (hw : Hw) (lock : Nat → Bool) (fuel : Nat)
    {a b : Machine} (h : SameButLock L a b) :
    (pll_head L (hw.withLock lock) fuel a).2 = (pll_head L hw fuel b).2 ∧
      SameButLock L (pll_head L (hw.withLock lock) fuel a).1 (pll_head L hw fuel b).1 := by
  obtain ⟨hv, hs⟩ := sbl_rd_pllcfg L hw lock h
  have ht := sel_of_drop hL hv
  simp only [pll_head]
  rw [ht]
  by_cases hc : (rd L hw .PLLCFG b).1 &&& PLL_SEL L 1 ≠ 0
  · rw [if_pos hc, if_pos hc]; exact sbl_use_hfrosc L hw lock fuel 4 16 hs
  · rw [if_neg hc, if_neg hc]; exact ⟨rfl, hs⟩

theorem sbl_pll_select (L : Layout) (hw : Hw) (lock : Nat → Bool) {a b : Machine}
    (h : SameButLock L a b) :
    SameButLock L (pll_select L (hw.withLock lock) a) (pll_select L hw b) := by
  obtain ⟨hv, hs⟩ := sbl_rd_pllcfg L hw lock h
  unfold pll_select
  apply sbl_wr_pllcfg L _ hs
  rw [Nat.and_distrib_right, Nat.and_distrib_right, hv]

theorem sameButLock_refl (L : Layout) (m : Machine) : SameButLock L m m :=
  ⟨fun _ _ => rfl, rfl, rfl, rfl⟩

theorem bypassWord_and_bypass {L : Layout} (hL : L.WF) (refsel : Int) :
    bypassWord L refsel &&& PLL_BYPASS L 1 = PLL_BYPASS L 1 := by
  have hU := wf_unpack hL
  simp [bypassWord, PLL_REFSEL, PLL_BYPASS, Nat.and_distrib_right, pack_and_pack,
    pack_and_pack_symm, hU]

theorem passThrough_facts {L : Layout} (hL : L.WF) :
    passThrough L &&& PLL_FINAL_DIV_BY_1 L 1 ≠ 0 ∧ L.pll_final_div.get (passThrough L) = 0 := by
  have hU := wf_unpack hL
  constructor
  · have : passThrough L &&& PLL_FINAL_DIV_BY_1 L 1 = PLL_FINAL_DIV_BY_1 L 1 := by
      simp [passThrough, PLL_FINAL_DIV_BY_1, PLL_FINAL_DIV, pack_zero]
    rw [this]
    simpa [PLL_FINAL_DIV_BY_1] using hU.2.2.2.2.2.2.2.2.2
  · have h := get_eq_of_and L.pll_final_div (passThrough L) 0 (by simp [Field.Fits]) hU.1.2.1
      (by simp [passThrough, PLL_FINAL_DIV_BY_1, PLL_FINAL_DIV, pack_zero, pack_and_bits_symm, hU])
    simpa using h

/-- The source check is over exactly when the select bit was clear or the
oscillator became ready within the fuel; it reads PLLCFG at most twice. -/
theorem pll_head_facts {L : Layout} (hL : L.WF) (hw : Hw) (fuel : Nat) (m : Machine) :
    ((pll_head L hw fuel m).2 = true ↔
      (m.regs .PLLCFG &&& PLL_SEL L 1 = 0 ∨
        ∃ j, j < fuel ∧ hw.rdy (m.reads .HFROSCCFG + j) = true)) ∧
    (pll_head L hw fuel m).1.reads .PLLCFG ≤ m.reads .PLLCFG + 2 ∧
    (pll_head L hw fuel m).1.reads .MTIME = m.reads .MTIME ∧
    ((pll_head L hw fuel m).2 = true →
      (pll_head L hw fuel m).1.regs .PLLCFG &&& PLL_SEL L 1 = 0) := by
  by_cases h : m.regs .PLLCFG &&& PLL_SEL L 1 = 0
  · rw [pll_head_clear hL hw fuel m h]
    simp [h]
  · rw [pll_head_set hL hw fuel m h]
    have hr := use_hfrosc_reads L hw fuel 4 16 (rd L hw .PLLCFG m).2
    have hd := use_hfrosc_done_iff hL hw fuel 4 16 (rd L hw .PLLCFG m).2
    simp only [rd_snd_reads, Function.update_same, ne_eq, reduceCtorEq, not_false_eq_true,
      Function.update_noteq] at hr hd
    refine ⟨?_, by omega, hr.2.2.2, ?_⟩
    · rw [hd]; simp [h]
    · intro hres
      obtain ⟨k, -, -, hdone, -⟩ := use_hfrosc_run L hw fuel 4 16 (rd L hw .PLLCFG m).2
      obtain ⟨-, -, hm⟩ := hdone hres
      rw [hm]
      simp [not32_and_self]

/-- C5: in a bypass call the lock readings have no influence: with any other
lock readings the call returns in the same cases, makes the same accesses and
leaves the same register contents, apart from the lock position of PLLCFG
words; PLLCFG is read at most three times whatever the fuel (source check and
read-modify-writes, no polling); on return the bypass bit of PLLCFG is set and
PLLDIV holds the pass-through word, final divide-by-1 bit set and final divider
field 0; and the call returns exactly when the select bit was clear or the
oscillator became ready. -/
theorem use_pll_bypass_ignores_lock (L : Layout) (hL : L.WF) (hw : Hw) (fuel : Nat)
    (refsel bypass r f q : Int) (m : Machine) (hb : bypass ≠ 0) :
    (∀ lock,
      (use_pll L (hw.withLock lock) fuel refsel bypass r f q m).2 =
          (use_pll L hw fuel refsel bypass r f q m).2 ∧
        SameButLock L (use_pll L (hw.withLock lock) fuel refsel bypass r f q m).1
          (use_pll L hw fuel refsel bypass r f q m).1) ∧
    (use_pll L hw fuel refsel bypass r f q m).1.reads .PLLCFG ≤ m.reads .PLLCFG + 3 ∧
    ((use_pll L hw fuel refsel bypass r f q m).2 = true →
      (use_pll L hw fuel refsel bypass r f q m).1.regs .PLLCFG &&& PLL_BYPASS L 1 ≠ 0 ∧
      (use_pll L hw fuel refsel bypass r f q m).1.regs .PLLDIV = passThrough L ∧
      passThrough L &&& PLL_FINAL_DIV_BY_1 L 1 ≠ 0 ∧
      L.pll_final_div.get (passThrough L) = 0) ∧
    ((use_pll L hw fuel refsel bypass r f q m).2 = true ↔
      (m.regs .PLLCFG &&& PLL_SEL L 1 = 0 ∨
        ∃ j, j < fuel ∧ hw.rdy (m.reads .HFROSCCFG + j) = true)) := by
  have hU := wf_unpack hL
  have hbyp : PLL_BYPASS L 1 ≠ 0 := by simpa [PLL_BYPASS] using hU.2.2.2.2.2.1
  obtain ⟨hiff, hreads, -, -⟩ := pll_head_facts hL hw fuel m
  refine ⟨?_, ?_, ?_, ?_⟩
  · intro lock
    rw [use_pll_bypass L _ fuel refsel bypass r f q m hb,
      use_pll_bypass L hw fuel refsel bypass r f q m hb]
    obtain ⟨hd, hs⟩ := sbl_pll_head hL hw lock fuel (sameButLock_refl L m)
    rw [hd]
    cases hh : (pll_head L hw fuel m).2 with
    | false => simp only [Bool.false_eq_true, if_false]; exact ⟨trivial, hs⟩
    | true =>
      simp only [if_true, true_and]
      apply sbl_pll_select
      unfold pll_bypass
      exact sbl_wr_other L _ _ (by decide) (sbl_wr_pllcfg L rfl hs)
  · rw [use_pll_bypass L hw fuel refsel bypass r f q m hb]
    cases hh : (pll_head L hw fuel m).2 with
    | false => simp only [Bool.false_eq_true, if_false]; omega
    | true => simp [pll_select, pll_bypass]; omega
  · rw [use_pll_bypass L hw fuel refsel bypass r f q m hb]
    cases hh : (pll_head L hw fuel m).2 with
    | false => intro h; simp at h
    | true =>
      intro _
      refine ⟨?_, ?_, passThrough_facts hL⟩
      · have : (ovl (bypassWord L refsel) (PLL_LOCK L 1)
            (hw.lock ((pll_head L hw fuel m).1.reads .PLLCFG)) ||| PLL_SEL L 1)
              &&& PLL_BYPASS L 1 = PLL_BYPASS L 1 := by
          rw [Nat.and_distrib_right, read_pllcfg_and_bypass hL, bypassWord_and_bypass hL]
          simp [PLL_SEL, PLL_BYPASS, pack_and_pack, pack_and_pack_symm, hU]
        simpa [pll_select, pll_bypass, hwValue, this] using hbyp
      · simp [pll_select, pll_bypass]
  · rw [use_pll_bypass L hw fuel refsel bypass r f q m hb, ← hiff]
    cases hh : (pll_head L hw fuel m).2 <;> simp

/-- C5, a concrete bypass call on the sample layout. -/
theorem use_pll_bypass_ignores_lock_witness :
    fe310.WF ∧ (1 : Int) ≠ 0 ∧
    (use_pll fe310 (hwFrom 9 0) 0 0 1 1 31 1 (mkMachine 0 0)).1.regs .PLLDIV
      = passThrough fe310 :=
  ⟨by decide, by decide,
   ((use_pll_bypass_ignores_lock fe310 (by decide) (hwFrom 9 0) 0 0 1 1 31 1
      (mkMachine 0 0) (by decide)).2.2.1 (by decide)).2.1⟩

/-! ## The PLL controller: the non-bypass branch -/

theorem pll_nobypass_trace (L : Layout) (hw : Hw) (fuel : Nat) (refsel r f q : Int)
    (m : Machine) (k2 k3 : Nat)
    (h : (pll_nobypass L hw fuel refsel r f q m).1 =
        afterReads L hw (afterReads L hw (pll_settling L hw refsel r f q m) .MTIME k2)
          .PLLCFG k3) :
    (pll_nobypass L hw fuel refsel r f q m).1.trace =
        m.trace ++ nobypassEvents L hw refsel r f q (m.reads .PLLCFG) (m.reads .MTIME) k2 k3 ∧
    (pll_nobypass L hw fuel refsel r f q m).1.regs .PLLCFG =
        unbypassWord L hw refsel r f q (m.reads .PLLCFG) ∧
    (pll_nobypass L hw fuel refsel r f q m).1.reads .PLLCFG = m.reads .PLLCFG + 1 + k3 := by
  rw [h]
  refine ⟨?_, ?_, ?_⟩
  · simp [pll_settling, pll_unbypassed, mtime_lo, readsOf, valAt, hwValue, nobypassEvents,
      tickReads, lockReads, unbypassWord]
  · simp [pll_settling, pll_unbypassed, mtime_lo, hwValue, unbypassWord]
  · simp [pll_settling, pll_unbypassed, mtime_lo]

theorem valAt_settling (L : Layout) (hw : Hw) (refsel r f q : Int) (m : Machine) (j : Nat) :
    valAt L hw (pll_settling L hw refsel r f q m) .MTIME j =
      hw.mtime (m.reads .MTIME + 1 + j) % 4294967296 := by
  simp [valAt, hwValue, pll_settling, pll_unbypassed, mtime_lo]

theorem pll_now_eq (L : Layout) (hw : Hw) (refsel r f q : Int) (m : Machine) :
    pll_now L hw refsel r f q m = hw.mtime (m.reads .MTIME) % 4294967296 := by
  simp [pll_now, hwValue, pll_unbypassed, mtime_lo]

theorem valAt_locking (L : Layout) (hw : Hw) (refsel r f q : Int) (m : Machine) (k2 j : Nat) :
    valAt L hw (afterReads L hw (pll_settling L hw refsel r f q m) .MTIME k2) .PLLCFG j =
      ovl (unbypassWord L hw refsel r f q (m.reads .PLLCFG)) (PLL_LOCK L 1)
        (hw.lock (m.reads .PLLCFG + 1 + j)) := by
  simp [valAt, hwValue, pll_settling, pll_unbypassed, mtime_lo, unbypassWord]

/-- What the non-bypass branch does, in terms of the environment: its events,
the stored PLLCFG word, the number of PLLCFG reads, and how the numbers `k2` of
counter samples and `k3` of lock polls are decided. -/
theorem pll_nobypass_shape {L : Layout} (hL : L.WF) (hw : Hw) (fuel : Nat)
    (refsel r f q : Int) (m : Machine) :
    ∃ k2 k3, k2 ≤ fuel ∧ k3 ≤ fuel ∧
      (pll_nobypass L hw fuel refsel r f q m).1.trace =
        m.trace ++ nobypassEvents L hw refsel r f q (m.reads .PLLCFG) (m.reads .MTIME) k2 k3 ∧
      (pll_nobypass L hw fuel refsel r f q m).1.regs .PLLCFG =
        unbypassWord L hw refsel r f q (m.reads .PLLCFG) ∧
      (pll_nobypass L hw fuel refsel r f q m).1.reads .PLLCFG = m.reads .PLLCFG + 1 + k3 ∧
      (∀ j, j + 1 < k2 →
        tickDiff (hw.mtime (m.reads .MTIME + 1 + j) % 4294967296)
          (hw.mtime (m.reads .MTIME) % 4294967296) < 4) ∧
      (∀ j, j + 1 < k3 → hw.lock (m.reads .PLLCFG + 1 + j) = false) ∧
      ((pll_nobypass L hw fuel refsel r f q m).2 = true →
        0 < k2 ∧
        4 ≤ tickDiff (hw.mtime (m.reads .MTIME + 1 + (k2 - 1)) % 4294967296)
          (hw.mtime (m.reads .MTIME) % 4294967296) ∧
        0 < k3 ∧ hw.lock (m.reads .PLLCFG + 1 + (k3 - 1)) = true) ∧
      ((pll_nobypass L hw fuel refsel r f q m).2 = false →
        (k2 = fuel ∧ k3 = 0 ∧
          ∀ j, j < k2 →
            tickDiff (hw.mtime (m.reads .MTIME + 1 + j) % 4294967296)
              (hw.mtime (m.reads .MTIME) % 4294967296) < 4) ∨
        (0 < k2 ∧
          4 ≤ tickDiff (hw.mtime (m.reads .MTIME + 1 + (k2 - 1)) % 4294967296)
            (hw.mtime (m.reads .MTIME) % 4294967296) ∧
          k3 = fuel ∧ ∀ j, j < k3 → hw.lock (m.reads .PLLCFG + 1 + j) = false)) := by
  have hU := wf_unpack hL
  have hlock : PLL_LOCK L 1 ≠ 0 := by simpa [PLL_LOCK] using hU.2.2.2.2.2.2.1
  obtain ⟨k2, k3, hk2, hk3, hm, hb2, hb3, hdone, hout⟩ :=
    pll_nobypass_run L hw fuel refsel r f q m
  simp only [valAt_settling, pll_now_eq, valAt_locking, ovl_hides hlock, ovl_shows hlock]
    at hb2 hb3 hdone hout
  obtain ⟨ht, hr, hn⟩ := pll_nobypass_trace L hw fuel refsel r f q m k2 k3 hm
  exact ⟨k2, k3, hk2, hk3, ht, hr, hn, hb2, hb3, hdone, hout⟩

/-! ## Splitting traces -/

/-- If no element of `A` satisfies `P`, a split of `A ++ [e]` at an element
satisfying `P` is the split at `e`. -/
theorem split_at_last {α : Type} (P : α → Prop) {A : List α} {e x : α} {pre post : List α}
    (hA : ∀ a ∈ A, ¬ P a) (hx : P x) (h : A ++ [e] = pre ++ x :: post) :
    pre = A ∧ x = e ∧ post = [] := by
  induction A generalizing pre with
  | nil =>
    cases pre with
    | nil =>
      simp only [List.nil_append, List.cons.injEq] at h
      exact ⟨rfl, h.1.symm, h.2.symm⟩
    | cons p pre =>
      simp only [List.nil_append, List.cons_append, List.cons.injEq] at h
      have := congrArg List.length h.2
      simp only [List.length_nil, List.length_append, List.length_cons] at this
      omega
  | cons a A ih =>
    cases pre with
    | nil =>
      simp only [List.cons_append, List.nil_append, List.cons.injEq] at h
      exact absurd (h.1 ▸ hx) (hA a (List.mem_cons_self _ _))
    | cons p pre =>
      simp only [List.cons_append, List.cons.injEq] at h
      obtain ⟨h1, h2, h3⟩ := ih (fun b hb => hA b (List.mem_cons_of_mem _ hb)) h.2
      exact ⟨by rw [h.1, h1], h2, h3⟩

theorem mem_of_split {α : Type} {E pre post : List α} {x : α} (h : E = pre ++ x :: post) :
    x ∈ E := by
  rw [h]; simp

theorem lockReads_succ (L : Layout) (hw : Hw) (stored n0 k : Nat) :
    lockReads L hw stored n0 (k + 1) =
      lockReads L hw stored n0 k ++
        [Event.read .PLLCFG (ovl stored (PLL_LOCK L 1) (hw.lock (n0 + k)))] := by
  simp [lockReads, List.range_succ]

/-- The events of `use_hfrosc` in terms of the environment. -/
theorem use_hfrosc_shape {L : Layout} (hL : L.WF) (hw : Hw) (fuel : Nat) (div trim : Int)
    (m : Machine) :
    ∃ k, k ≤ fuel ∧
      (use_hfrosc L hw fuel div trim m).1.trace =
        m.trace ++ hfroscEvents L hw div trim (m.regs .PLLCFG) (m.reads .HFROSCCFG)
          (m.reads .PLLCFG) k (use_hfrosc L hw fuel div trim m).2 ∧
      ((use_hfrosc L hw fuel div trim m).2 = true →
        (use_hfrosc L hw fuel div trim m).1.regs .PLLCFG =
          ovl (m.regs .PLLCFG) (PLL_LOCK L 1) (hw.lock (m.reads .PLLCFG))
            &&& not32 (PLL_SEL L 1)) ∧
      (∀ j, j + 1 < k → hw.rdy (m.reads .HFROSCCFG + j) = false) ∧
      ((use_hfrosc L hw fuel div trim m).2 = true →
        0 < k ∧ hw.rdy (m.reads .HFROSCCFG + (k - 1)) = true) ∧
      ((use_hfrosc L hw fuel div trim m).2 = false →
        k = fuel ∧ ∀ j, j < k → hw.rdy (m.reads .HFROSCCFG + j) = false) := by
  have hU := wf_unpack hL
  have hrdy : ROSC_RDY L 1 ≠ 0 := by simpa [ROSC_RDY] using hU.2.2.2.2.2.2.2.2.1
  obtain ⟨k, hk, hbefore, hdone, hout⟩ := use_hfrosc_run L hw fuel div trim m
  simp only [valAt_hfrosc, ovl_hides hrdy, ovl_shows hrdy] at hbefore hdone hout
  refine ⟨k, hk, ?_, ?_, hbefore, fun h => ⟨(hdone h).1, (hdone h).2.1⟩,
    fun h => ⟨(hout h).1, (hout h).2.1⟩⟩
  · cases hres : (use_hfrosc L hw fuel div trim m).2 with
    | true =>
      rw [(hdone hres).2.2]
      simp [hfroscPolled, readsOf_hfrosc, hwValue, hfroscEvents, rdyReads]
    | false =>
      rw [(hout hres).2.2]
      simp [hfroscPolled, readsOf_hfrosc, hfroscEvents, rdyReads]
  · intro hres
    rw [(hdone hres).2.2]
    simp [hfroscPolled, hwValue]

/-- The events of the source check: PLLCFG is written only with the select bit
clear, no register other than HFROSCCFG and PLLCFG is written, and the counter
is not sampled. -/
theorem pll_head_events (L : Layout) (hw : Hw) (fuel : Nat) (m : Machine) :
    ∃ H, (pll_head L hw fuel m).1.trace = m.trace ++ H ∧
      (∀ v, Event.write .PLLCFG v ∈ H → v &&& PLL_SEL L 1 = 0) ∧
      (∀ r v, Event.write r v ∈ H → r = .HFROSCCFG ∨ r = .PLLCFG) ∧
      (∀ v, Event.read .MTIME v ∉ H) := by
  unfold pll_head
  by_cases hc : (rd L hw .PLLCFG m).1 &&& PLL_SEL L 1 ≠ 0
  · simp only []
    rw [if_pos hc]
    obtain ⟨k, -, -, hdone, hout⟩ := use_hfrosc_run L hw fuel 4 16 (rd L hw .PLLCFG m).2
    cases hres : (use_hfrosc L hw fuel 4 16 (rd L hw .PLLCFG m).2).2 with
    | true =>
      rw [(hdone hres).2.2]
      refine ⟨_, by simp only [wr_trace, rd_snd_trace, hfroscPolled, afterReads_trace,
        List.append_assoc]; rfl, ?_, ?_, ?_⟩
      · intro v hv
        simp [readsOf] at hv
        rw [hv]; exact not32_and_self _ _
      · intro r v hv
        simp [readsOf] at hv
        rcases hv with h | h
        · exact Or.inl h.1
        · exact Or.inr h.1
      · intro v hv
        simp [readsOf] at hv
    | false =>
      rw [(hout hres).2.2]
      refine ⟨_, by simp only [rd_snd_trace, hfroscPolled, afterReads_trace, wr_trace,
        List.append_assoc]; rfl, ?_, ?_, ?_⟩
      · intro v hv
        simp [readsOf] at hv
      · intro r v hv
        simp [readsOf] at hv
        exact Or.inl hv.1
      · intro v hv
        simp [readsOf] at hv
  · simp only []
    rw [if_neg hc]
    exact ⟨[Event.read .PLLCFG (hwValue L hw m .PLLCFG)], rfl, by simp, by simp, by simp⟩

theorem unbypassWord_and_sel {L : Layout} (hL : L.WF) (hw : Hw) (refsel r f q : Int)
    (nP : Nat) : unbypassWord L hw refsel r f q nP &&& PLL_SEL L 1 = 0 := by
  have hU := wf_unpack hL
  have hd : PLL_BYPASS L 1 &&& PLL_SEL L 1 = 0 := by
    simp [PLL_SEL, PLL_BYPASS, pack_and_pack, pack_and_pack_symm, hU]
  have hB : PLL_BYPASS L 1 < 4294967296 := pack_lt L.pll_bypass 1
  have hS : PLL_SEL L 1 < 4294967296 := pack_lt L.pll_sel 1
  unfold unbypassWord
  rw [not32_and hB hS hd, read_pllcfg_and_sel hL, configWord_and_sel hL]

theorem unbypassWord_and_bypass (L : Layout) (hw : Hw) (refsel r f q : Int) (nP : Nat) :
    unbypassWord L hw refsel r f q nP &&& PLL_BYPASS L 1 = 0 :=
  not32_and_self _ _

/-- In the events of the non-bypass branch, PLLCFG is written only with the
select bit clear. -/
theorem nobypassEvents_sel {L : Layout} (hL : L.WF) (hw : Hw) (refsel r f q : Int)
    (nP nT k2 k3 : Nat) (v : Nat)
    (hv : Event.write .PLLCFG v ∈ nobypassEvents L hw refsel r f q nP nT k2 k3) :
    v &&& PLL_SEL L 1 = 0 := by
  simp [nobypassEvents, tickReads, lockReads] at hv
  rcases hv with h | h
  · rw [h]; exact configWord_and_sel hL refsel r f q
  · rw [h]; exact unbypassWord_and_sel hL hw refsel r f q nP

theorem nobypassEvents_succ (L : Layout) (hw : Hw) (refsel r f q : Int)
    (nP nT k2 k : Nat) :
    nobypassEvents L hw refsel r f q nP nT k2 (k + 1) =
      nobypassEvents L hw refsel r f q nP nT k2 k ++
        [Event.read .PLLCFG (ovl (unbypassWord L hw refsel r f q nP) (PLL_LOCK L 1)
          (hw.lock (nP + 1 + k)))] := by
  simp [nobypassEvents, lockReads_succ]

/-- The events of a non-bypass call: a part `A` in which PLLCFG is written only
with the select bit clear, followed, if the call returns, by the final
read-modify-write; in that case `A` ends with a read of PLLCFG that shows the
lock bit. -/
theorem use_pll_nobypass_split {L : Layout} (hL : L.WF) (hw : Hw) (fuel : Nat)
    (refsel r f q : Int) (m : Machine) :
    ∃ A, (∀ v, Event.write .PLLCFG v ∈ A → v &&& PLL_SEL L 1 = 0) ∧
      ((use_pll L hw fuel refsel 0 r f q m).2 = false →
        (use_pll L hw fuel refsel 0 r f q m).1.trace = m.trace ++ A) ∧
      ((use_pll L hw fuel refsel 0 r f q m).2 = true →
        ∃ A0 u w, A = A0 ++ [Event.read .PLLCFG u] ∧ u &&& PLL_LOCK L 1 ≠ 0 ∧
          (use_pll L hw fuel refsel 0 r f q m).1.trace =
            m.trace ++ (A ++ [Event.read .PLLCFG w, Event.write .PLLCFG (w ||| PLL_SEL L 1)])) := by
  have hU := wf_unpack hL
  have hlock : PLL_LOCK L 1 ≠ 0 := by simpa [PLL_LOCK] using hU.2.2.2.2.2.2.1
  obtain ⟨H, hH, hHsel, -, -⟩ := pll_head_events L hw fuel m
  rw [use_pll_nobypass]
  cases hh : (pll_head L hw fuel m).2 with
  | false =>
    refine ⟨H, hHsel, fun _ => by simpa using hH, fun h => by simp at h⟩
  | true =>
    obtain ⟨k2, k3, -, -, ht, hr, hn, -, -, hdone, -⟩ :=
      pll_nobypass_shape hL hw fuel refsel r f q (pll_head L hw fuel m).1
    rw [hH] at ht
    refine ⟨H ++ nobypassEvents L hw refsel r f q ((pll_head L hw fuel m).1.reads .PLLCFG)
      ((pll_head L hw fuel m).1.reads .MTIME) k2 k3, ?_, ?_, ?_⟩
    · intro v hv
      rw [List.mem_append] at hv
      rcases hv with h | h
      · exact hHsel v h
      · exact nobypassEvents_sel hL hw refsel r f q _ _ _ _ v h
    · intro hres
      cases hnb : (pll_nobypass L hw fuel refsel r f q (pll_head L hw fuel m).1).2 with
      | false => simp only [if_true, Bool.false_eq_true, if_false]; rw [ht, List.append_assoc]
      | true => rw [hnb] at hres; simp at hres
    · intro hres
      cases hnb : (pll_nobypass L hw fuel refsel r f q (pll_head L hw fuel m).1).2 with
      | false => rw [hnb] at hres; simp at hres
      | true =>
        obtain ⟨-, -, hk3, hlast⟩ := hdone hnb
        obtain ⟨k, rfl⟩ : ∃ k, k3 = k + 1 := ⟨k3 - 1, by omega⟩
        simp only [Nat.add_sub_cancel] at hlast
        refine ⟨_, _, hwValue L hw
          (pll_nobypass L hw fuel refsel r f q (pll_head L hw fuel m).1).1 .PLLCFG,
          by rw [nobypassEvents_succ, ← List.append_assoc], ?_, ?_⟩
        · rw [ovl_shows hlock]; exact hlast
        · simp only [if_true, pll_select, wr_trace, rd_snd_trace, rd_fst, ht,
            List.append_assoc, List.cons_append, List.nil_append]

/-- C1: in a non-bypass call of `use_pll`, whatever the initial registers, the
fuel and the lock readings, a write of PLLCFG with the select bit set is the
last access of the call, it follows directly its own read, which follows a
read of PLLCFG whose value has the lock bit set, and every earlier write of
PLLCFG has the select bit clear. -/
theorem use_pll_selects_only_after_lock (L : Layout) (hL : L.WF) (hw : Hw) (fuel : Nat)
    (refsel r f q : Int) (m : Machine) :
    ∃ E, (use_pll L hw fuel refsel 0 r f q m).1.trace = m.trace ++ E ∧
      ∀ pre v post, E = pre ++ Event.write .PLLCFG v :: post → v &&& PLL_SEL L 1 ≠ 0 →
        (∃ pre0 u w, pre = pre0 ++ [Event.read .PLLCFG u, Event.read .PLLCFG w] ∧
          u &&& PLL_LOCK L 1 ≠ 0 ∧ v = w ||| PLL_SEL L 1) ∧
        (∀ v0, Event.write .PLLCFG v0 ∈ pre → v0 &&& PLL_SEL L 1 = 0) ∧
        post = [] := by
  obtain ⟨A, hA, hout, hdone⟩ := use_pll_nobypass_split hL hw fuel refsel r f q m
  cases hres : (use_pll L hw fuel refsel 0 r f q m).2 with
  | false =>
    refine ⟨A, hout hres, ?_⟩
    intro pre v post hE hv
    exact absurd (hA v (mem_of_split hE)) hv
  | true =>
    obtain ⟨A0, u, w, hA0, hu, ht⟩ := hdone hres
    refine ⟨_, ht, ?_⟩
    intro pre v post hE hv
    have hA2 : ∀ a ∈ A ++ [Event.read .PLLCFG w],
        ¬ (∃ v0, a = Event.write .PLLCFG v0 ∧ v0 &&& PLL_SEL L 1 ≠ 0) := by
      rintro a ha ⟨v0, rfl, hv0⟩
      simp only [List.mem_append, List.mem_singleton, reduceCtorEq, or_false] at ha
      exact hv0 (hA v0 ha)
    have hE2 : (A ++ [Event.read .PLLCFG w]) ++ [Event.write .PLLCFG (w ||| PLL_SEL L 1)]
        = pre ++ Event.write .PLLCFG v :: post := by
      rw [← hE]; simp
    obtain ⟨hpre, hx, hpost⟩ := split_at_last
      (fun a => ∃ v0, a = Event.write .PLLCFG v0 ∧ v0 &&& PLL_SEL L 1 ≠ 0) hA2
      ⟨v, rfl, hv⟩ hE2
    refine ⟨⟨A0, u, w, by rw [hpre, hA0]; simp, hu, by simpa using hx⟩, ?_, hpost⟩
    intro v0 hv0
    by_contra hne
    rw [hpre] at hv0
    exact hA2 _ hv0 ⟨v0, rfl, hne⟩

/-- C1, a concrete non-bypass call on the sample layout that returns: its last
access is the write that sets the select bit. -/
theorem use_pll_selects_only_after_lock_witness :
    fe310.WF ∧
    ∃ E, (use_pll fe310 (hwFrom 2 0) 8 0 0 1 31 1 (mkMachine 0 0)).1.trace
        = (mkMachine 0 0).trace ++ E ∧
      ∀ pre v post, E = pre ++ Event.write .PLLCFG v :: post → v &&& PLL_SEL fe310 1 ≠ 0 →
        (∃ pre0 u w, pre = pre0 ++ [Event.read .PLLCFG u, Event.read .PLLCFG w] ∧
          u &&& PLL_LOCK fe310 1 ≠ 0 ∧ v = w ||| PLL_SEL fe310 1) ∧
        (∀ v0, Event.write .PLLCFG v0 ∈ pre → v0 &&& PLL_SEL fe310 1 = 0) ∧
        post = [] :=
  ⟨by decide,
   use_pll_selects_only_after_lock fe310 (by decide) (hwFrom 2 0) 8 0 1 31 1 (mkMachine 0 0)⟩

/-! ## Order of the writes -/

theorem or_lt32 {a b : Nat} (ha : a < 4294967296) (hb : b < 4294967296) :
    a ||| b < 4294967296 := by
  have e : (4294967296 : Nat) = 2 ^ 32 := by norm_num
  rw [e] at ha hb ⊢
  exact Nat.or_lt_two_pow ha hb

/-- Clearing the bits `B` of a word read back changes nothing outside `B` and
the status bit `K`. -/
theorem only_cleared (x B K : Nat) (l : Bool) (hB : B < 4294967296) (hK : K < 4294967296) :
    (ovl x K l &&& not32 B) &&& not32 (B ||| K) = x &&& not32 (B ||| K) := by
  apply Nat.eq_of_testBit_eq
  intro i
  cases l <;>
  simp only [ovl, if_true, Bool.false_eq_true, if_false, Nat.testBit_and, Nat.testBit_or,
    testBit_not32 hB, testBit_not32 hK, testBit_not32 (or_lt32 hB hK)] <;>
  cases x.testBit i <;> cases B.testBit i <;> cases K.testBit i <;> simp

/-- Setting the bits `S` of a word read back changes nothing outside `S` and
the status bit `K`. -/
theorem only_set (x S K : Nat) (l : Bool) (hS : S < 4294967296) (hK : K < 4294967296) :
    (ovl x K l ||| S) &&& not32 (S ||| K) = x &&& not32 (S ||| K) := by
  apply Nat.eq_of_testBit_eq
  intro i
  cases l <;>
  simp only [ovl, if_true, Bool.false_eq_true, if_false, Nat.testBit_and, Nat.testBit_or,
    testBit_not32 hK, testBit_not32 (or_lt32 hS hK)] <;>
  cases x.testBit i <;> cases S.testBit i <;> cases K.testBit i <;> simp

theorem filter_isStep_tickReads (hw : Hw) (n0 k : Nat) :
    (tickReads hw n0 k).filter Event.isStep = [] := by
  simp [tickReads, List.filter_eq_nil_iff, Event.isStep]

theorem filter_isStep_lockReads (L : Layout) (hw : Hw) (stored n0 k : Nat) :
    (lockReads L hw stored n0 k).filter Event.isStep = [] := by
  simp [lockReads, List.filter_eq_nil_iff, Event.isStep]

theorem filter_isStep_rdyReads (L : Layout) (hw : Hw) (stored n0 k : Nat) :
    (rdyReads L hw stored n0 k).filter Event.isStep = [] := by
  simp [rdyReads, List.filter_eq_nil_iff, Event.isStep]

theorem filter_isStep_nobypassEvents (L : Layout) (hw : Hw) (refsel r f q : Int)
    (nP nT k2 k3 : Nat) :
    (nobypassEvents L hw refsel r f q nP nT k2 k3).filter Event.isStep =
      [Event.write .SPI_SCKDIV 8, Event.write .PLLDIV (passThrough L),
       Event.write .PLLCFG (configWord L refsel r f q),
       Event.write .PLLCFG (unbypassWord L hw refsel r f q nP)] := by
  simp [nobypassEvents, List.filter_append, filter_isStep_tickReads, filter_isStep_lockReads,
    List.filter_cons, Event.isStep]

theorem configWord_and_bypass {L : Layout} (hL : L.WF) (refsel r f q : Int) :
    configWord L refsel r f q &&& PLL_BYPASS L 1 = PLL_BYPASS L 1 := by
  have hU := wf_unpack hL
  simp [configWord, PLL_REFSEL, PLL_BYPASS, PLL_R, PLL_F, PLL_Q, Nat.and_distrib_right,
    pack_and_pack, pack_and_pack_symm, hU]

/-- The trace of a non-bypass call made with the select bit clear. -/
theorem use_pll_nobypass_clear_trace {L : Layout} (hL : L.WF) (hw : Hw) (fuel : Nat)
    (refsel r f q : Int) (m : Machine) (hsel : m.regs .PLLCFG &&& PLL_SEL L 1 = 0) :
    ∃ k2 k3, k2 ≤ fuel ∧ k3 ≤ fuel ∧
      (use_pll L hw fuel refsel 0 r f q m).1.trace =
        m.trace ++
          (Event.read .PLLCFG (ovl (m.regs .PLLCFG) (PLL_LOCK L 1) (hw.lock (m.reads .PLLCFG)))
            :: nobypassEvents L hw refsel r f q (m.reads .PLLCFG + 1) (m.reads .MTIME) k2 k3
            ++ (if (use_pll L hw fuel refsel 0 r f q m).2 then
                  selectEvents L hw (unbypassWord L hw refsel r f q (m.reads .PLLCFG + 1))
                    (m.reads .PLLCFG + 1 + 1 + k3)
                else [])) ∧
      ((use_pll L hw fuel refsel 0 r f q m).2 = true →
        (use_pll L hw fuel refsel 0 r f q m).1.regs .PLLCFG =
          ovl (unbypassWord L hw refsel r f q (m.reads .PLLCFG + 1)) (PLL_LOCK L 1)
            (hw.lock (m.reads .PLLCFG + 1 + 1 + k3)) ||| PLL_SEL L 1) ∧
      (∀ j, j + 1 < k2 →
        tickDiff (hw.mtime (m.reads .MTIME + 1 + j) % 4294967296)
          (hw.mtime (m.reads .MTIME) % 4294967296) < 4) ∧
      (∀ j, j + 1 < k3 → hw.lock (m.reads .PLLCFG + 1 + 1 + j) = false) ∧
      ((use_pll L hw fuel refsel 0 r f q m).2 = true →
        0 < k2 ∧
        4 ≤ tickDiff (hw.mtime (m.reads .MTIME + 1 + (k2 - 1)) % 4294967296)
          (hw.mtime (m.reads .MTIME) % 4294967296) ∧
        0 < k3 ∧ hw.lock (m.reads .PLLCFG + 1 + 1 + (k3 - 1)) = true) ∧
      ((use_pll L hw fuel refsel 0 r f q m).2 = false →
        (k2 = fuel ∧ k3 = 0 ∧
          ∀ j, j < k2 →
            tickDiff (hw.mtime (m.reads .MTIME + 1 + j) % 4294967296)
              (hw.mtime (m.reads .MTIME) % 4294967296) < 4) ∨
        (0 < k2 ∧
          4 ≤ tickDiff (hw.mtime (m.reads .MTIME + 1 + (k2 - 1)) % 4294967296)
            (hw.mtime (m.reads .MTIME) % 4294967296) ∧
          k3 = fuel ∧ ∀ j, j < k3 → hw.lock (m.reads .PLLCFG + 1 + 1 + j) = false)) := by
  rw [use_pll_nobypass, pll_head_clear hL hw fuel m hsel]
  obtain ⟨k2, k3, hk2, hk3, ht, hr, hn, hb2, hb3, hdone, hout⟩ :=
    pll_nobypass_shape hL hw fuel refsel r f q (rd L hw .PLLCFG m).2
  simp only [rd_snd_reads, rd_snd_trace, Function.update_same, ne_eq, reduceCtorEq,
    not_false_eq_true, Function.update_noteq] at ht hr hn hb2 hb3 hdone hout
  refine ⟨k2, k3, hk2, hk3, ?_, ?_, hb2, hb3, ?_, ?_⟩
  · cases hnb : (pll_nobypass L hw fuel refsel r f q (rd L hw .PLLCFG m).2).2 with
    | false => simp [ht, hwValue]
    | true => simp [ht, hwValue, pll_select, selectEvents, hr, hn]
  · cases hnb : (pll_nobypass L hw fuel refsel r f q (rd L hw .PLLCFG m).2).2 with
    | false => simp
    | true => simp [hwValue, pll_select, hr, hn]
  · cases hnb : (pll_nobypass L hw fuel refsel r f q (rd L hw .PLLCFG m).2).2 with
    | false => simp
    | true => intro _; exact hdone hnb
  · cases hnb : (pll_nobypass L hw fuel refsel r f q (rd L hw .PLLCFG m).2).2 with
    | false => intro _; exact hout hnb
    | true => simp

/-- The trace of a non-bypass call: the events of the source check, then, if
that is over, the events of lines 74-115, then, if the call returns, the final
read-modify-write. -/
theorem use_pll_nobypass_trace {L : Layout} (hL : L.WF) (hw : Hw) (fuel : Nat)
    (refsel r f q : Int) (m : Machine) :
    ∃ k2 k3, k2 ≤ fuel ∧ k3 ≤ fuel ∧
      (use_pll L hw fuel refsel 0 r f q m).1.trace =
        (pll_head L hw fuel m).1.trace ++
          (if (pll_head L hw fuel m).2 then
            nobypassEvents L hw refsel r f q ((pll_head L hw fuel m).1.reads .PLLCFG)
              (m.reads .MTIME) k2 k3
            ++ (if (use_pll L hw fuel refsel 0 r f q m).2 then
                  selectEvents L hw
                    (unbypassWord L hw refsel r f q ((pll_head L hw fuel m).1.reads .PLLCFG))
                    ((pll_head L hw fuel m).1.reads .PLLCFG + 1 + k3)
                else [])
           else []) ∧
      ((use_pll L hw fuel refsel 0 r f q m).2 = true →
        (pll_head L hw fuel m).2 = true ∧
        (use_pll L hw fuel refsel 0 r f q m).1.regs .PLLCFG =
          ovl (unbypassWord L hw refsel r f q ((pll_head L hw fuel m).1.reads .PLLCFG))
            (PLL_LOCK L 1) (hw.lock ((pll_head L hw fuel m).1.reads .PLLCFG + 1 + k3))
            ||| PLL_SEL L 1) ∧
      (∀ j, j + 1 < k2 →
        tickDiff (hw.mtime (m.reads .MTIME + 1 + j) % 4294967296)
          (hw.mtime (m.reads .MTIME) % 4294967296) < 4) ∧
      (∀ j, j + 1 < k3 → hw.lock ((pll_head L hw fuel m).1.reads .PLLCFG + 1 + j) = false) ∧
      ((use_pll L hw fuel refsel 0 r f q m).2 = true →
        0 < k2 ∧
        4 ≤ tickDiff (hw.mtime (m.reads .MTIME + 1 + (k2 - 1)) % 4294967296)
          (hw.mtime (m.reads .MTIME) % 4294967296) ∧
        0 < k3 ∧ hw.lock ((pll_head L hw fuel m).1.reads .PLLCFG + 1 + (k3 - 1)) = true) ∧
      ((pll_head L hw fuel m).2 = true → (use_pll L hw fuel refsel 0 r f q m).2 = false →
        (k2 = fuel ∧ k3 = 0 ∧
          ∀ j, j < k2 →
            tickDiff (hw.mtime (m.reads .MTIME + 1 + j) % 4294967296)
              (hw.mtime (m.reads .MTIME) % 4294967296) < 4) ∨
        (0 < k2 ∧
          4 ≤ tickDiff (hw.mtime (m.reads .MTIME + 1 + (k2 - 1)) % 4294967296)
            (hw.mtime (m.reads .MTIME) % 4294967296) ∧
          k3 = fuel ∧
          ∀ j, j < k3 → hw.lock ((pll_head L hw fuel m).1.reads .PLLCFG + 1 + j) = false)) := by
  obtain ⟨-, -, hmt, -⟩ := pll_head_facts hL hw fuel m
  rw [use_pll_nobypass]
  obtain ⟨k2, k3, hk2, hk3, ht, hr, hn, hb2, hb3, hdone, hout⟩ :=
    pll_nobypass_shape hL hw fuel refsel r f q (pll_head L hw fuel m).1
  rw [hmt] at ht hb2 hdone hout
  refine ⟨k2, k3, hk2, hk3, ?_, ?_, hb2, hb3, ?_, ?_⟩
  · cases hh : (pll_head L hw fuel m).2 with
    | false => simp
    | true =>
      cases hnb : (pll_nobypass L hw fuel refsel r f q (pll_head L hw fuel m).1).2 with
      | false => simp [ht]
      | true => simp [ht, hwValue, pll_select, selectEvents, hr, hn]
  · cases hh : (pll_head L hw fuel m).2 with
    | false => simp
    | true =>
      cases hnb : (pll_nobypass L hw fuel refsel r f q (pll_head L hw fuel m).1).2 with
      | false => simp
      | true => simp [hwValue, pll_select, hr, hn]
  · cases hh : (pll_head L hw fuel m).2 with
    | false => simp
    | true =>
      cases hnb : (pll_nobypass L hw fuel refsel r f q (pll_head L hw fuel m).1).2 with
      | false => simp
      | true => intro _; exact hdone hnb
  · intro hh
    rw [hh]
    cases hnb : (pll_nobypass L hw fuel refsel r f q (pll_head L hw fuel m).1).2 with
    | false => intro _; exact hout hnb
    | true => simp

/-- The 32-bit difference counts the ticks elapsed, also across the wrap of the
counter. -/
theorem tickDiff_wrap (now d : Nat) (hn : now < 4294967296) (hd : d < 4294967296) :
    tickDiff ((now + d) % 4294967296) now = d := by
  unfold tickDiff
  by_cases h : now + d < 4294967296
  · rw [Nat.mod_eq_of_lt h]
    have : now + d + 4294967296 - now = d + 4294967296 := by omega
    rw [this, Nat.add_mod_right, Nat.mod_eq_of_lt hd]
  · have e : (now + d) % 4294967296 = now + d - 4294967296 := by
      rw [Nat.mod_eq_sub_mod (by omega)]
      exact Nat.mod_eq_of_lt (by omega)
    rw [e]
    have : now + d - 4294967296 + 4294967296 - now = d := by omega
    rw [this, Nat.mod_eq_of_lt hd]

/-- C10: in a non-bypass call of `use_pll` made with the select bit clear, the
writes are, in this order: SCKDIV := 8; PLLDIV := the pass-through word;
PLLCFG := the configuration word `refsel | bypass | r | f | q`, select clear
and bypass set; PLLCFG := the word read back with only the bypass bit cleared;
and then PLLCFG := the word read back with only the select bit set.  The last
write is made exactly when, within the fuel, a counter sample differs from
`now` by at least 4 and a lock poll shows the lock bit; it then follows `k2`
counter samples, of which the last is the first with difference at least 4,
and `k3` lock polls, of which the last is the first with the lock bit set.
"Only" leaves aside the lock position, which the hardware drives. -/
theorem use_pll_write_order (L : Layout) (hL : L.WF) (hw : Hw) (fuel : Nat)
    (refsel r f q : Int) (m : Machine) (hsel : m.regs .PLLCFG &&& PLL_SEL L 1 = 0) :
    ∃ k2 k3 E, (use_pll L hw fuel refsel 0 r f q m).1.trace = m.trace ++ E ∧
      E = Event.read .PLLCFG (ovl (m.regs .PLLCFG) (PLL_LOCK L 1) (hw.lock (m.reads .PLLCFG)))
            :: nobypassEvents L hw refsel r f q (m.reads .PLLCFG + 1) (m.reads .MTIME) k2 k3
            ++ (if (use_pll L hw fuel refsel 0 r f q m).2 then
                  selectEvents L hw (unbypassWord L hw refsel r f q (m.reads .PLLCFG + 1))
                    (m.reads .PLLCFG + 1 + 1 + k3)
                else []) ∧
      E.filter Event.isStep =
        [Event.write .SPI_SCKDIV 8,
         Event.write .PLLDIV (passThrough L),
         Event.write .PLLCFG (configWord L refsel r f q),
         Event.write .PLLCFG (unbypassWord L hw refsel r f q (m.reads .PLLCFG + 1))]
        ++ (if (use_pll L hw fuel refsel 0 r f q m).2 then
              [Event.write .PLLCFG
                (ovl (unbypassWord L hw refsel r f q (m.reads .PLLCFG + 1)) (PLL_LOCK L 1)
                  (hw.lock (m.reads .PLLCFG + 1 + 1 + k3)) ||| PLL_SEL L 1)]
            else []) ∧
      k2 ≤ fuel ∧ k3 ≤ fuel ∧
      (∀ j, j + 1 < k2 →
        tickDiff (hw.mtime (m.reads .MTIME + 1 + j) % 4294967296)
          (hw.mtime (m.reads .MTIME) % 4294967296) < 4) ∧
      (∀ j, j + 1 < k3 → hw.lock (m.reads .PLLCFG + 1 + 1 + j) = false) ∧
      ((use_pll L hw fuel refsel 0 r f q m).2 = true →
        0 < k2 ∧
        4 ≤ tickDiff (hw.mtime (m.reads .MTIME + 1 + (k2 - 1)) % 4294967296)
          (hw.mtime (m.reads .MTIME) % 4294967296) ∧
        0 < k3 ∧ hw.lock (m.reads .PLLCFG + 1 + 1 + (k3 - 1)) = true) ∧
      ((use_pll L hw fuel refsel 0 r f q m).2 = true ↔
        (∃ j, j < fuel ∧
          4 ≤ tickDiff (hw.mtime (m.reads .MTIME + 1 + j) % 4294967296)
            (hw.mtime (m.reads .MTIME) % 4294967296)) ∧
        (∃ j, j < fuel ∧ hw.lock (m.reads .PLLCFG + 1 + 1 + j) = true)) ∧
      configWord L refsel r f q =
        PLL_REFSEL L refsel ||| PLL_BYPASS L 1 ||| PLL_R L r ||| PLL_F L f ||| PLL_Q L q ∧
      configWord L refsel r f q &&& PLL_SEL L 1 = 0 ∧
      configWord L refsel r f q &&& PLL_BYPASS L 1 ≠ 0 ∧
      passThrough L &&& PLL_FINAL_DIV_BY_1 L 1 ≠ 0 ∧
      L.pll_final_div.get (passThrough L) = 0 ∧
      unbypassWord L hw refsel r f q (m.reads .PLLCFG + 1) &&& PLL_BYPASS L 1 = 0 ∧
      unbypassWord L hw refsel r f q (m.reads .PLLCFG + 1)
          &&& not32 (PLL_BYPASS L 1 ||| PLL_LOCK L 1) =
        configWord L refsel r f q &&& not32 (PLL_BYPASS L 1 ||| PLL_LOCK L 1) ∧
      (∀ l, (ovl (unbypassWord L hw refsel r f q (m.reads .PLLCFG + 1)) (PLL_LOCK L 1) l
              ||| PLL_SEL L 1) &&& PLL_SEL L 1 ≠ 0 ∧
            (ovl (unbypassWord L hw refsel r f q (m.reads .PLLCFG + 1)) (PLL_LOCK L 1) l
              ||| PLL_SEL L 1) &&& not32 (PLL_SEL L 1 ||| PLL_LOCK L 1) =
            unbypassWord L hw refsel r f q (m.reads .PLLCFG + 1)
              &&& not32 (PLL_SEL L 1 ||| PLL_LOCK L 1)) := by
  have hU := wf_unpack hL
  have hselne : PLL_SEL L 1 ≠ 0 := by simpa [PLL_SEL] using hU.2.2.2.2.1
  have hbyp : PLL_BYPASS L 1 ≠ 0 := by simpa [PLL_BYPASS] using hU.2.2.2.2.2.1
  have hB : PLL_BYPASS L 1 < 4294967296 := pack_lt L.pll_bypass 1
  have hS : PLL_SEL L 1 < 4294967296 := pack_lt L.pll_sel 1
  have hK : PLL_LOCK L 1 < 4294967296 := pack_lt L.pll_lock 1
  obtain ⟨k2, k3, hk2, hk3, ht, -, hb2, hb3, hdone, hout⟩ :=
    use_pll_nobypass_clear_trace hL hw fuel refsel r f q m hsel
  refine ⟨k2, k3, _, ht, rfl, ?_, hk2, hk3, hb2, hb3, hdone, ?_, ?_,
    configWord_and_sel hL refsel r f q, ?_, (passThrough_facts hL).1, (passThrough_facts hL).2,
    unbypassWord_and_bypass L hw refsel r f q _, only_cleared _ _ _ _ hB hK, ?_⟩
  · cases hres : (use_pll L hw fuel refsel 0 r f q m).2 with
    | false =>
      simp [List.filter_cons, Event.isStep, filter_isStep_nobypassEvents]
    | true =>
      simp [List.filter_cons, List.filter_append, Event.isStep, filter_isStep_nobypassEvents,
        selectEvents]
  · constructor
    · intro hres
      obtain ⟨h1, h2, h3, h4⟩ := hdone hres
      exact ⟨⟨k2 - 1, by omega, h2⟩, ⟨k3 - 1, by omega, h4⟩⟩
    · rintro ⟨⟨jt, hjt, hjtd⟩, ⟨jl, hjl, hjll⟩⟩
      by_contra hne
      have hres : (use_pll L hw fuel refsel 0 r f q m).2 = false := by simpa using hne
      rcases hout hres with h | h
      · have := h.2.2 jt (by omega)
        omega
      · have := h.2.2.2 jl (by omega)
        rw [hjll] at this
        exact Bool.noConfusion this
  · simp [configWord]
  · rw [configWord_and_bypass hL]; exact hbyp
  · intro l
    refine ⟨?_, only_set _ _ _ _ hS hK⟩
    rw [or_and_self]; exact hselne

/-- C10, a concrete non-bypass call on the sample layout, lock from the third
read of PLLCFG on and one tick per counter sample: the call returns and all
five writes are made. -/
theorem use_pll_write_order_witness :
    fe310.WF ∧ (mkMachine 0 0).regs .PLLCFG &&& PLL_SEL fe310 1 = 0 ∧
    (use_pll fe310 (hwFrom 2 0) 8 0 0 1 31 1 (mkMachine 0 0)).2 = true ∧
    ∃ k3 E, (use_pll fe310 (hwFrom 2 0) 8 0 0 1 31 1 (mkMachine 0 0)).1.trace
        = (mkMachine 0 0).trace ++ E ∧
      E.filter Event.isStep =
        [Event.write .SPI_SCKDIV 8,
         Event.write .PLLDIV (passThrough fe310),
         Event.write .PLLCFG (configWord fe310 0 1 31 1),
         Event.write .PLLCFG (unbypassWord fe310 (hwFrom 2 0) 0 1 31 1
           ((mkMachine 0 0).reads .PLLCFG + 1)),
         Event.write .PLLCFG
           (ovl (unbypassWord fe310 (hwFrom 2 0) 0 1 31 1
               ((mkMachine 0 0).reads .PLLCFG + 1)) (PLL_LOCK fe310 1)
             ((hwFrom 2 0).lock ((mkMachine 0 0).reads .PLLCFG + 1 + 1 + k3))
             ||| PLL_SEL fe310 1)] := by
  obtain ⟨k2, k3, E, h1, -, h3, -, -, -, -, -, hiff, -⟩ :=
    use_pll_write_order fe310 (by decide) (hwFrom 2 0) 8 0 1 31 1 (mkMachine 0 0) (by decide)
  have hd : (use_pll fe310 (hwFrom 2 0) 8 0 0 1 31 1 (mkMachine 0 0)).2 = true :=
    hiff.2 ⟨⟨3, by decide, by decide⟩, ⟨0, by decide, by decide⟩⟩
  rw [hd] at h3
  exact ⟨by decide, by decide, hd, k3, E, h1, h3⟩

/-- C9: in a non-bypass call of `use_pll`, once the source check is over, the
sample `now` is followed by `k2` further samples of the counter; each of them
but the last differs from `now` by less than 4 modulo 2^32; a lock poll
happens only when the last one differs by at least 4; and while the fuel lasts
the loop is left as soon as such a sample exists.  The difference
modulo 2^32 counts the ticks elapsed for every `now`, also when the counter
wraps. -/
theorem use_pll_settle_wait (L : Layout) (hL : L.WF) (hw : Hw) (fuel : Nat)
    (refsel r f q : Int) (m : Machine) :
    (∃ k2 k3, k2 ≤ fuel ∧ k3 ≤ fuel ∧
      (use_pll L hw fuel refsel 0 r f q m).1.trace =
        (pll_head L hw fuel m).1.trace ++
          (if (pll_head L hw fuel m).2 then
            nobypassEvents L hw refsel r f q ((pll_head L hw fuel m).1.reads .PLLCFG)
              (m.reads .MTIME) k2 k3
            ++ (if (use_pll L hw fuel refsel 0 r f q m).2 then
                  selectEvents L hw
                    (unbypassWord L hw refsel r f q ((pll_head L hw fuel m).1.reads .PLLCFG))
                    ((pll_head L hw fuel m).1.reads .PLLCFG + 1 + k3)
                else [])
           else []) ∧
      (∀ j, j + 1 < k2 →
        tickDiff (hw.mtime (m.reads .MTIME + 1 + j) % 4294967296)
          (hw.mtime (m.reads .MTIME) % 4294967296) < 4) ∧
      ((pll_head L hw fuel m).2 = true → 0 < k3 →
        0 < k2 ∧
        4 ≤ tickDiff (hw.mtime (m.reads .MTIME + 1 + (k2 - 1)) % 4294967296)
          (hw.mtime (m.reads .MTIME) % 4294967296)) ∧
      ((pll_head L hw fuel m).2 = true →
        (∃ j, j < fuel ∧
          4 ≤ tickDiff (hw.mtime (m.reads .MTIME + 1 + j) % 4294967296)
            (hw.mtime (m.reads .MTIME) % 4294967296)) →
        0 < k2 ∧
        4 ≤ tickDiff (hw.mtime (m.reads .MTIME + 1 + (k2 - 1)) % 4294967296)
          (hw.mtime (m.reads .MTIME) % 4294967296))) ∧
    (∀ now d, now < 4294967296 → d < 4294967296 →
      tickDiff ((now + d) % 4294967296) now = d) := by
  refine ⟨?_, tickDiff_wrap⟩
  obtain ⟨k2, k3, hk2, hk3, ht, hd1, hb2, -, hdone, hout⟩ :=
    use_pll_nobypass_trace hL hw fuel refsel r f q m
  refine ⟨k2, k3, hk2, hk3, ht, hb2, ?_, ?_⟩
  · intro hh hk30
    cases hres : (use_pll L hw fuel refsel 0 r f q m).2 with
    | true => exact ⟨(hdone hres).1, (hdone hres).2.1⟩
    | false =>
      rcases hout hh hres with h1 | h1
      · omega
      · exact ⟨h1.1, h1.2.1⟩
  · intro hh ⟨j, hj, hjd⟩
    cases hres : (use_pll L hw fuel refsel 0 r f q m).2 with
    | true => exact ⟨(hdone hres).1, (hdone hres).2.1⟩
    | false =>
      rcases hout hh hres with h1 | h1
      · have := h1.2.2 j (by omega)
        omega
      · exact ⟨h1.1, h1.2.1⟩

/-- C9, a concrete non-bypass call on the sample layout whose counter starts at
`2^32 - 2` and wraps during the wait. -/
theorem use_pll_settle_wait_witness :
    fe310.WF ∧ tickDiff ((4294967294 + 4) % 4294967296) 4294967294 = 4 :=
  ⟨by decide,
   (use_pll_settle_wait fe310 (by decide) (hwFrom 2 4294967294) 8 0 1 31 1
      (mkMachine 0 0)).2 4294967294 4 (by decide) (by decide)⟩

/-! ## The select bit at the time of each write -/

theorem pllcfgAfter_write (c : Nat) (r : Reg) (v : Nat) (es : List Event) :
    pllcfgAfter c (Event.write r v :: es) = pllcfgAfter (if r = Reg.PLLCFG then v else c) es := by
  cases r <;> simp [pllcfgAfter]

theorem pllcfgAfter_read (c : Nat) (r : Reg) (v : Nat) (es : List Event) :
    pllcfgAfter c (Event.read r v :: es) = pllcfgAfter c es := by
  simp [pllcfgAfter]

theorem pllcfgAfter_call (c : Nat) (fn : Ext) (es : List Event) :
    pllcfgAfter c (Event.call fn :: es) = pllcfgAfter c es := by
  simp [pllcfgAfter]

theorem selClearAtWrites_write (L : Layout) (c : Nat) (r : Reg) (v : Nat) (es : List Event) :
    selClearAtWrites L c (Event.write r v :: es) ↔
      c &&& PLL_SEL L 1 = 0 ∧ selClearAtWrites L (if r = Reg.PLLCFG then v else c) es := by
  simp [selClearAtWrites]

theorem selClearAtWrites_read (L : Layout) (c : Nat) (r : Reg) (v : Nat) (es : List Event) :
    selClearAtWrites L c (Event.read r v :: es) ↔ selClearAtWrites L c es := by
  simp [selClearAtWrites]

theorem selClearAtWrites_call (L : Layout) (c : Nat) (fn : Ext) (es : List Event) :
    selClearAtWrites L c (Event.call fn :: es) ↔ selClearAtWrites L c es := by
  simp [selClearAtWrites]

/-- The recursive check gives the statement about every split of the events. -/
theorem selClearAtWrites_split (L : Layout) :
    ∀ (es : List Event) (c : Nat), selClearAtWrites L c es →
      ∀ pre r v post, es = pre ++ Event.write r v :: post →
        pllcfgAfter c pre &&& PLL_SEL L 1 = 0 := by
  intro es
  induction es with
  | nil =>
    intro c _ pre r v post h
    have := congrArg List.length h
    simp only [List.length_nil, List.length_append, List.length_cons] at this
    omega
  | cons e es ih =>
    intro c hc pre r v post h
    cases pre with
    | nil =>
      simp only [List.nil_append, List.cons.injEq] at h
      rw [h.1] at hc
      exact ((selClearAtWrites_write L c r v es).1 hc).1
    | cons p pre =>
      simp only [List.cons_append, List.cons.injEq] at h
      obtain ⟨rfl, h2⟩ := h
      cases e with
      | read r0 v0 =>
        rw [pllcfgAfter_read]
        exact ih c ((selClearAtWrites_read L c r0 v0 es).1 hc) pre r v post h2
      | write r0 v0 =>
        rw [pllcfgAfter_write]
        exact ih _ ((selClearAtWrites_write L c r0 v0 es).1 hc).2 pre r v post h2
      | call fn =>
        rw [pllcfgAfter_call]
        exact ih c ((selClearAtWrites_call L c fn es).1 hc) pre r v post h2

/-- A block of reads does not matter to the check. -/
theorem selClearAtWrites_reads (L : Layout) (c : Nat) (R es : List Event)
    (hR : ∀ e ∈ R, ∃ r v, e = Event.read r v) :
    selClearAtWrites L c (R ++ es) ↔ selClearAtWrites L c es := by
  induction R with
  | nil => simp
  | cons e R ih =>
    obtain ⟨r, v, rfl⟩ := hR _ (List.mem_cons_self _ _)
    rw [List.cons_append, selClearAtWrites_read]
    exact ih (fun e he => hR e (List.mem_cons_of_mem _ he))

theorem tickReads_reads (hw : Hw) (n0 k : Nat) :
    ∀ e ∈ tickReads hw n0 k, ∃ r v, e = Event.read r v := by
  intro e he
  simp only [tickReads, List.mem_map] at he
  obtain ⟨j, -, rfl⟩ := he
  exact ⟨_, _, rfl⟩

theorem lockReads_reads (L : Layout) (hw : Hw) (stored n0 k : Nat) :
    ∀ e ∈ lockReads L hw stored n0 k, ∃ r v, e = Event.read r v := by
  intro e he
  simp only [lockReads, List.mem_map] at he
  obtain ⟨j, -, rfl⟩ := he
  exact ⟨_, _, rfl⟩

/-- The events of the non-bypass branch and of the final read-modify-write pass
the check when they start with the select bit clear. -/
theorem selClearAtWrites_nobypass {L : Layout} (hL : L.WF) (hw : Hw) (refsel r f q : Int)
    (nP nT k2 k3 n : Nat) (done : Bool) (c : Nat) (hc : c &&& PLL_SEL L 1 = 0) :
    selClearAtWrites L c
      (nobypassEvents L hw refsel r f q nP nT k2 k3 ++
        (if done then selectEvents L hw (unbypassWord L hw refsel r f q nP) n else [])) := by
  have h1 := configWord_and_sel hL refsel r f q
  have h2 := unbypassWord_and_sel hL hw refsel r f q nP
  simp only [nobypassEvents, List.cons_append, List.nil_append, List.append_assoc,
    selClearAtWrites_write, selClearAtWrites_read, reduceCtorEq, if_false, if_true]
  refine ⟨hc, hc, hc, h1, ?_⟩
  rw [selClearAtWrites_reads L _ _ _ (tickReads_reads hw _ _),
    selClearAtWrites_reads L _ _ _ (lockReads_reads L hw _ _ _)]
  cases done with
  | false => simp [selClearAtWrites]
  | true =>
    simp only [if_true, selectEvents, selClearAtWrites_write, selClearAtWrites_read]
    exact ⟨h2, by simp [selClearAtWrites]⟩

/-- The events of the bypass branch and of the final read-modify-write pass the
check when they start with the select bit clear. -/
theorem selClearAtWrites_bypass {L : Layout} (hL : L.WF) (hw : Hw) (refsel : Int) (n : Nat)
    (c : Nat) (hc : c &&& PLL_SEL L 1 = 0) :
    selClearAtWrites L c
      [Event.write .PLLCFG (bypassWord L refsel),
       Event.write .PLLDIV (passThrough L),
       Event.read .PLLCFG (ovl (bypassWord L refsel) (PLL_LOCK L 1) (hw.lock n)),
       Event.write .PLLCFG (ovl (bypassWord L refsel) (PLL_LOCK L 1) (hw.lock n)
         ||| PLL_SEL L 1)] := by
  have h1 := bypassWord_and_sel hL refsel
  simp only [selClearAtWrites_write, selClearAtWrites_read, reduceCtorEq, if_false, if_true]
  exact ⟨hc, h1, h1, by simp [selClearAtWrites]⟩

/-- The trace of a bypass call: the events of the source check, then, if that
is over, the two writes of the bypass branch and the final read-modify-write. -/
theorem use_pll_bypass_trace (L : Layout) (hw : Hw) (fuel : Nat)
    (refsel bypass r f q : Int) (m : Machine) (hb : bypass ≠ 0) :
    (use_pll L hw fuel refsel bypass r f q m).1.trace =
      (pll_head L hw fuel m).1.trace ++
        (if (pll_head L hw fuel m).2 then
          [Event.write .PLLCFG (bypassWord L refsel),
           Event.write .PLLDIV (passThrough L),
           Event.read .PLLCFG (ovl (bypassWord L refsel) (PLL_LOCK L 1)
             (hw.lock ((pll_head L hw fuel m).1.reads .PLLCFG))),
           Event.write .PLLCFG (ovl (bypassWord L refsel) (PLL_LOCK L 1)
             (hw.lock ((pll_head L hw fuel m).1.reads .PLLCFG)) ||| PLL_SEL L 1)]
         else []) := by
  rw [use_pll_bypass L hw fuel refsel bypass r f q m hb]
  cases hh : (pll_head L hw fuel m).2 with
  | false => simp
  | true => simp [pll_select, pll_bypass, hwValue]

/-- C2: in a call of `use_pll` made with the select bit set, the accesses are:
the read of PLLCFG, then those of `use_hfrosc(4, 16)`, which writes HFROSCCFG,
polls it and ends by writing PLLCFG back with the select bit cleared, then the
rest `B`, which holds the writes of the PLL configuration (PLLCFG, PLLDIV);
every write in `B` is made while the stored PLLCFG word has the select bit
clear. -/
theorem use_pll_deselects_before_config (L : Layout) (hL : L.WF) (hw : Hw) (fuel : Nat)
    (refsel bypass r f q : Int) (m : Machine) (hsel : m.regs .PLLCFG &&& PLL_SEL L 1 ≠ 0) :
    ∃ k B, k ≤ fuel ∧
      (use_pll L hw fuel refsel bypass r f q m).1.trace =
        m.trace ++
          (Event.read .PLLCFG (ovl (m.regs .PLLCFG) (PLL_LOCK L 1) (hw.lock (m.reads .PLLCFG)))
            :: hfroscEvents L hw 4 16 (m.regs .PLLCFG) (m.reads .HFROSCCFG)
                (m.reads .PLLCFG + 1) k (pll_head L hw fuel m).2 ++ B) ∧
      ((pll_head L hw fuel m).2 = false → B = []) ∧
      ((pll_head L hw fuel m).2 = true →
        Event.write .PLLDIV (passThrough L) ∈ B ∧
        (bypass ≠ 0 → Event.write .PLLCFG (bypassWord L refsel) ∈ B) ∧
        (bypass = 0 → Event.write .PLLCFG (configWord L refsel r f q) ∈ B)) ∧
      (ovl (m.regs .PLLCFG) (PLL_LOCK L 1) (hw.lock (m.reads .PLLCFG + 1))
          &&& not32 (PLL_SEL L 1)) &&& PLL_SEL L 1 = 0 ∧
      ∀ pre r0 v post, B = pre ++ Event.write r0 v :: post →
        pllcfgAfter
          (ovl (m.regs .PLLCFG) (PLL_LOCK L 1) (hw.lock (m.reads .PLLCFG + 1))
            &&& not32 (PLL_SEL L 1)) pre &&& PLL_SEL L 1 = 0 := by
  have hhead := pll_head_set hL hw fuel m hsel
  obtain ⟨k, hk, ht, -, -, -, -⟩ := use_hfrosc_shape hL hw fuel 4 16 (rd L hw .PLLCFG m).2
  rw [← hhead] at ht
  simp only [rd_snd_trace, rd_snd_regs, rd_snd_reads, Function.update_same, ne_eq,
    reduceCtorEq, not_false_eq_true, Function.update_noteq, hwValue] at ht
  have hclr := not32_and_self
    (ovl (m.regs .PLLCFG) (PLL_LOCK L 1) (hw.lock (m.reads .PLLCFG + 1))) (PLL_SEL L 1)
  cases hh : (pll_head L hw fuel m).2 with
  | false =>
    refine ⟨k, [], hk, ?_, fun _ => rfl, fun h => by simp at h, hclr, ?_⟩
    · rw [use_pll_eq, hh]
      simp only [Bool.false_eq_true, if_false]
      rw [ht, hh]; simp
    · intro pre r0 v post h
      have := congrArg List.length h
      simp only [List.length_nil, List.length_append, List.length_cons] at this
      omega
  | true =>
    by_cases hb : bypass = 0
    · subst hb
      obtain ⟨k2, k3, -, -, ht2, -⟩ := use_pll_nobypass_trace hL hw fuel refsel r f q m
      rw [hh] at ht2
      simp only [if_true] at ht2
      refine ⟨k,
        nobypassEvents L hw refsel r f q ((pll_head L hw fuel m).1.reads .PLLCFG)
            (m.reads .MTIME) k2 k3
          ++ (if (use_pll L hw fuel refsel 0 r f q m).2 then
                selectEvents L hw
                  (unbypassWord L hw refsel r f q ((pll_head L hw fuel m).1.reads .PLLCFG))
                  ((pll_head L hw fuel m).1.reads .PLLCFG + 1 + k3)
              else []),
        hk, ?_, fun h => by simp at h, fun _ => ⟨?_, fun h => absurd rfl h, fun _ => ?_⟩,
        hclr, selClearAtWrites_split L _ _
          (selClearAtWrites_nobypass hL hw refsel r f q _ _ k2 k3 _ _ _ hclr)⟩
      · rw [ht2, ht, hh]; simp
      · simp [nobypassEvents]
      · simp [nobypassEvents]
    · have ht2 := use_pll_bypass_trace L hw fuel refsel bypass r f q m hb
      rw [hh] at ht2
      simp only [if_true] at ht2
      refine ⟨k,
        [Event.write .PLLCFG (bypassWord L refsel),
         Event.write .PLLDIV (passThrough L),
         Event.read .PLLCFG (ovl (bypassWord L refsel) (PLL_LOCK L 1)
           (hw.lock ((pll_head L hw fuel m).1.reads .PLLCFG))),
         Event.write .PLLCFG (ovl (bypassWord L refsel) (PLL_LOCK L 1)
           (hw.lock ((pll_head L hw fuel m).1.reads .PLLCFG)) ||| PLL_SEL L 1)],
        hk, ?_, fun h => by simp at h, fun _ => ⟨?_, fun _ => ?_, fun h => absurd h hb⟩,
        hclr, selClearAtWrites_split L _ _ (selClearAtWrites_bypass hL hw refsel _ _ hclr)⟩
      · rw [ht2, ht, hh]; simp
      · simp
      · simp

/-- C2, a concrete call on the sample layout made with the select bit set. -/
theorem use_pll_deselects_before_config_witness :
    fe310.WF ∧ (mkMachine 65536 0).regs .PLLCFG &&& PLL_SEL fe310 1 ≠ 0 ∧
    ∃ k B, k ≤ 8 ∧
      (use_pll fe310 (hwFrom 2 0) 8 0 0 1 31 1 (mkMachine 65536 0)).1.trace =
        (mkMachine 65536 0).trace ++
          (Event.read .PLLCFG (ovl ((mkMachine 65536 0).regs .PLLCFG) (PLL_LOCK fe310 1)
              ((hwFrom 2 0).lock ((mkMachine 65536 0).reads .PLLCFG)))
            :: hfroscEvents fe310 (hwFrom 2 0) 4 16 ((mkMachine 65536 0).regs .PLLCFG)
                ((mkMachine 65536 0).reads .HFROSCCFG)
                ((mkMachine 65536 0).reads .PLLCFG + 1) k
                (pll_head fe310 (hwFrom 2 0) 8 (mkMachine 65536 0)).2 ++ B) ∧
      ∀ pre r0 v post, B = pre ++ Event.write r0 v :: post →
        pllcfgAfter
          (ovl ((mkMachine 65536 0).regs .PLLCFG) (PLL_LOCK fe310 1)
            ((hwFrom 2 0).lock ((mkMachine 65536 0).reads .PLLCFG + 1))
            &&& not32 (PLL_SEL fe310 1)) pre &&& PLL_SEL fe310 1 = 0 := by
  obtain ⟨k, B, h1, h2, -, -, -, h6⟩ :=
    use_pll_deselects_before_config fe310 (by decide) (hwFrom 2 0) 8 0 0 1 31 1
      (mkMachine 65536 0) (by decide)
  exact ⟨by decide, by decide, k, B, h1, h2, h6⟩

/-! ## The orchestrator -/

@[simp] theorem ext_regs (fn : Ext) (m : Machine) : (ext fn m).regs = m.regs := rfl

@[simp] theorem ext_reads (fn : Ext) (m : Machine) : (ext fn m).reads = m.reads := rfl

@[simp] theorem ext_trace (fn : Ext) (m : Machine) :
    (ext fn m).trace = m.trace ++ [Event.call fn] := rfl

/-- The machine on which `_PrepC` starts the clock bring-up. -/
theorem prepC_start (xip : Bool) (m : Machine) :
    (if xip then ext .data_copy (ext .bss_zero m) else ext .bss_zero m).regs = m.regs ∧
    (if xip then ext .data_copy (ext .bss_zero m) else ext .bss_zero m).reads = m.reads ∧
    (if xip then ext .data_copy (ext .bss_zero m) else ext .bss_zero m).trace =
      m.trace ++ Event.call .bss_zero :: (if xip then [Event.call .data_copy] else []) := by
  cases xip <;> simp

/-- The whole run of `_PrepC` in terms of the environment: `k` polls of the
ready bit, `k2` samples of the counter after `now`, `k3` polls of the lock bit;
`c` tells whether `use_default_clocks` returned. -/
theorem prepC_shape {L : Layout} (hL : L.WF) (hw : Hw) (xip : Bool) (fuel : Nat)
    (m : Machine) :
    ∃ k k2 k3 c, k ≤ fuel ∧ k2 ≤ fuel ∧ k3 ≤ fuel ∧
      (_PrepC L hw xip fuel m).1.trace =
        m.trace ++ Event.call .bss_zero :: ((if xip then [Event.call .data_copy] else []) ++
          ([Event.read .AON_LFROSC (m.regs .AON_LFROSC),
            Event.write .AON_LFROSC (m.regs .AON_LFROSC &&& not32 (ROSC_EN L 1))] ++
           hfroscEvents L hw 4 16 (m.regs .PLLCFG) (m.reads .HFROSCCFG) (m.reads .PLLCFG) k c ++
           (if c then
              Event.read .PLLCFG
                  (ovl (ovl (m.regs .PLLCFG) (PLL_LOCK L 1) (hw.lock (m.reads .PLLCFG))
                    &&& not32 (PLL_SEL L 1)) (PLL_LOCK L 1) (hw.lock (m.reads .PLLCFG + 1)))
                :: nobypassEvents L hw 0 1 31 1 (m.reads .PLLCFG + 2) (m.reads .MTIME) k2 k3
                ++ (if (_PrepC L hw xip fuel m).2 then
                      selectEvents L hw (unbypassWord L hw 0 1 31 1 (m.reads .PLLCFG + 2))
                        (m.reads .PLLCFG + 3 + k3) ++ [Event.call .Cstart]
                    else [])
            else []))) ∧
      ((_PrepC L hw xip fuel m).2 = true → c = true) ∧
      (c = true ↔ ∃ j, j < fuel ∧ hw.rdy (m.reads .HFROSCCFG + j) = true) ∧
      ((_PrepC L hw xip fuel m).2 = true →
        (_PrepC L hw xip fuel m).1.regs .PLLCFG =
          ovl (unbypassWord L hw 0 1 31 1 (m.reads .PLLCFG + 2)) (PLL_LOCK L 1)
            (hw.lock (m.reads .PLLCFG + 3 + k3)) ||| PLL_SEL L 1) ∧
      (c = true → (_PrepC L hw xip fuel m).2 = false →
        (∀ j, j < fuel →
            tickDiff (hw.mtime (m.reads .MTIME + 1 + j) % 4294967296)
              (hw.mtime (m.reads .MTIME) % 4294967296) < 4) ∨
        (∀ j, j < fuel → hw.lock (m.reads .PLLCFG + 3 + j) = false)) := by
  obtain ⟨hs1, hs2, hs3⟩ := prepC_start xip m
  have hdef : _PrepC L hw xip fuel m =
      if (use_hfrosc L hw fuel 4 16
            (wr .AON_LFROSC
              ((rd L hw .AON_LFROSC
                (if xip then ext .data_copy (ext .bss_zero m) else ext .bss_zero m)).1
                  &&& not32 (ROSC_EN L 1))
              (rd L hw .AON_LFROSC
                (if xip then ext .data_copy (ext .bss_zero m) else ext .bss_zero m)).2)).2 then
        if (use_pll L hw fuel 0 0 1 31 1 (use_hfrosc L hw fuel 4 16
            (wr .AON_LFROSC
              ((rd L hw .AON_LFROSC
                (if xip then ext .data_copy (ext .bss_zero m) else ext .bss_zero m)).1
                  &&& not32 (ROSC_EN L 1))
              (rd L hw .AON_LFROSC
                (if xip then ext .data_copy (ext .bss_zero m) else ext .bss_zero m)).2)).1).2 then
          (ext .Cstart (use_pll L hw fuel 0 0 1 31 1 (use_hfrosc L hw fuel 4 16
            (wr .AON_LFROSC
              ((rd L hw .AON_LFROSC
                (if xip then ext .data_copy (ext .bss_zero m) else ext .bss_zero m)).1
                  &&& not32 (ROSC_EN L 1))
              (rd L hw .AON_LFROSC
                (if xip then ext .data_copy (ext .bss_zero m) else ext .bss_zero m)).2)).1).1,
            true)
        else ((use_pll L hw fuel 0 0 1 31 1 (use_hfrosc L hw fuel 4 16
            (wr .AON_LFROSC
              ((rd L hw .AON_LFROSC
                (if xip then ext .data_copy (ext .bss_zero m) else ext .bss_zero m)).1
                  &&& not32 (ROSC_EN L 1))
              (rd L hw .AON_LFROSC
                (if xip then ext .data_copy (ext .bss_zero m) else ext .bss_zero m)).2)).1).1,
            false)
      else ((use_hfrosc L hw fuel 4 16
            (wr .AON_LFROSC
              ((rd L hw .AON_LFROSC
                (if xip then ext .data_copy (ext .bss_zero m) else ext .bss_zero m)).1
                  &&& not32 (ROSC_EN L 1))
              (rd L hw .AON_LFROSC
                (if xip then ext .data_copy (ext .bss_zero m) else ext .bss_zero m)).2)).1,
            false) := rfl
  rw [hdef]
  generalize hM1 : wr .AON_LFROSC
      ((rd L hw .AON_LFROSC
        (if xip then ext .data_copy (ext .bss_zero m) else ext .bss_zero m)).1
          &&& not32 (ROSC_EN L 1))
      (rd L hw .AON_LFROSC
        (if xip then ext .data_copy (ext .bss_zero m) else ext .bss_zero m)).2 = M1
  have hM1regs : M1.regs .PLLCFG = m.regs .PLLCFG := by
    rw [← hM1]; simp [hs1]
  have hM1rP : M1.reads .PLLCFG = m.reads .PLLCFG := by
    rw [← hM1]; simp [hs2]
  have hM1rH : M1.reads .HFROSCCFG = m.reads .HFROSCCFG := by
    rw [← hM1]; simp [hs2]
  have hM1rT : M1.reads .MTIME = m.reads .MTIME := by
    rw [← hM1]; simp [hs2]
  have hM1tr : M1.trace = m.trace ++ Event.call .bss_zero ::
      ((if xip then [Event.call .data_copy] else []) ++
        [Event.read .AON_LFROSC (m.regs .AON_LFROSC),
         Event.write .AON_LFROSC (m.regs .AON_LFROSC &&& not32 (ROSC_EN L 1))]) := by
    rw [← hM1]; simp [hs1, hs3, hwValue]
  obtain ⟨k, hk, hct, hcregs, -, -, -⟩ := use_hfrosc_shape hL hw fuel 4 16 M1
  have hciff := use_hfrosc_done_iff hL hw fuel 4 16 M1
  obtain ⟨-, -, hcrP, hcrT⟩ := use_hfrosc_reads L hw fuel 4 16 M1
  rw [hM1regs, hM1rP, hM1rH, hM1tr] at hct
  rw [hM1regs, hM1rP] at hcregs
  rw [hM1rH] at hciff
  rw [hM1rP] at hcrP
  rw [hM1rT] at hcrT
  cases hc : (use_hfrosc L hw fuel 4 16 M1).2 with
  | false =>
    rw [hc] at hct
    refine ⟨k, 0, 0, false, hk, Nat.zero_le _, Nat.zero_le _, ?_, by simp, ?_, by simp,
      by simp⟩
    · simp [hct]
    · rw [← hciff, hc]
  | true =>
    rw [hc] at hct
    have hsel : (use_hfrosc L hw fuel 4 16 M1).1.regs .PLLCFG &&& PLL_SEL L 1 = 0 := by
      rw [hcregs hc]; exact not32_and_self _ _
    obtain ⟨k2, k3, hk2, hk3, hpt, hpregs, -, -, -, hpout⟩ :=
      use_pll_nobypass_clear_trace hL hw fuel 0 1 31 1 (use_hfrosc L hw fuel 4 16 M1).1 hsel
    rw [hcrP hc, hcrT, hcregs hc, hct] at hpt
    rw [hcrP hc] at hpregs
    rw [hcrP hc, hcrT] at hpout
    refine ⟨k, k2, k3, true, hk, hk2, hk3, ?_, by simp, ?_, ?_, ?_⟩
    · cases hp : (use_pll L hw fuel 0 0 1 31 1 (use_hfrosc L hw fuel 4 16 M1).1).2 with
      | false =>
        rw [hp] at hpt
        simp [hpt]
      | true =>
        rw [hp] at hpt
        simp [hpt, Nat.add_assoc]
    · rw [← hciff, hc]
    · cases hp : (use_pll L hw fuel 0 0 1 31 1 (use_hfrosc L hw fuel 4 16 M1).1).2 with
      | false => simp
      | true =>
        intro _
        simp only [if_true, ext_regs]
        rw [hpregs hp]
    · intro _
      cases hp : (use_pll L hw fuel 0 0 1 31 1 (use_hfrosc L hw fuel 4 16 M1).1).2 with
      | true => simp
      | false =>
        intro _
        rcases hpout hp with h | h
        · left
          intro j hj
          exact h.2.2 j (by omega)
        · right
          intro j hj
          have := h.2.2.2 j (by omega)
          simpa [Nat.add_assoc] using this

/-- The PLLCFG word on return from a non-bypass call: select set, bypass
clear, and the reference-select and divider fields as packed from the
arguments. -/
theorem selected_word {L : Layout} (hL : L.WF) (hw : Hw) (refsel r f q : Int) (n : Nat)
    (l : Bool) :
    (ovl (unbypassWord L hw refsel r f q n) (PLL_LOCK L 1) l ||| PLL_SEL L 1)
        &&& PLL_SEL L 1 ≠ 0 ∧
    (ovl (unbypassWord L hw refsel r f q n) (PLL_LOCK L 1) l ||| PLL_SEL L 1)
        &&& PLL_BYPASS L 1 = 0 ∧
    (ovl (unbypassWord L hw refsel r f q n) (PLL_LOCK L 1) l ||| PLL_SEL L 1)
        &&& L.pll_refsel.bits = L.pll_refsel.pack refsel ∧
    (ovl (unbypassWord L hw refsel r f q n) (PLL_LOCK L 1) l ||| PLL_SEL L 1)
        &&& L.pll_r.bits = L.pll_r.pack r ∧
    (ovl (unbypassWord L hw refsel r f q n) (PLL_LOCK L 1) l ||| PLL_SEL L 1)
        &&& L.pll_f.bits = L.pll_f.pack f ∧
    (ovl (unbypassWord L hw refsel r f q n) (PLL_LOCK L 1) l ||| PLL_SEL L 1)
        &&& L.pll_q.bits = L.pll_q.pack q := by
  have hU := wf_unpack hL
  have hselne : PLL_SEL L 1 ≠ 0 := by simpa [PLL_SEL] using hU.2.2.2.2.1
  have hB : PLL_BYPASS L 1 < 4294967296 := pack_lt L.pll_bypass 1
  have hK : PLL_LOCK L 1 < 4294967296 := pack_lt L.pll_lock 1
  have key : ∀ (g : Field), g.bits < 4294967296 → PLL_SEL L 1 &&& g.bits = 0 →
      PLL_LOCK L 1 &&& g.bits = 0 → PLL_BYPASS L 1 &&& g.bits = 0 →
      (ovl (unbypassWord L hw refsel r f q n) (PLL_LOCK L 1) l ||| PLL_SEL L 1) &&& g.bits
        = configWord L refsel r f q &&& g.bits := by
    intro g hg h1 h2 h3
    rw [or_and_disj h1, ovl_and l hK hg h2]
    unfold unbypassWord
    rw [not32_and hB hg h3, ovl_and _ hK hg h2]
  refine ⟨?_, ?_, ?_, ?_, ?_, ?_⟩
  · rw [or_and_self]; exact hselne
  · have h1 : PLL_SEL L 1 &&& PLL_BYPASS L 1 = 0 := by
      simp [PLL_SEL, PLL_BYPASS, pack_and_pack, pack_and_pack_symm, hU]
    rw [or_and_disj h1, read_pllcfg_and_bypass hL]
    exact unbypassWord_and_bypass L hw refsel r f q n
  · rw [key L.pll_refsel hU.1.1.1.2.2.2.2.1
      (by simp [PLL_SEL, pack_and_bits, pack_and_bits_symm, hU])
      (by simp [PLL_LOCK, pack_and_bits, pack_and_bits_symm, hU])
      (by simp [PLL_BYPASS, pack_and_bits, pack_and_bits_symm, hU])]
    simp [configWord, PLL_REFSEL, PLL_BYPASS, PLL_R, PLL_F, PLL_Q, Nat.and_distrib_right,
      pack_and_bits, pack_and_bits_symm, pack_and_bits_self, hU]
  · rw [key L.pll_r hU.1.1.1.1
      (by simp [PLL_SEL, pack_and_bits, pack_and_bits_symm, hU])
      (by simp [PLL_LOCK, pack_and_bits, pack_and_bits_symm, hU])
      (by simp [PLL_BYPASS, pack_and_bits, pack_and_bits_symm, hU])]
    simp [configWord, PLL_REFSEL, PLL_BYPASS, PLL_R, PLL_F, PLL_Q, Nat.and_distrib_right,
      pack_and_bits, pack_and_bits_symm, pack_and_bits_self, hU]
  · rw [key L.pll_f hU.1.1.1.2.1
      (by simp [PLL_SEL, pack_and_bits, pack_and_bits_symm, hU])
      (by simp [PLL_LOCK, pack_and_bits, pack_and_bits_symm, hU])
      (by simp [PLL_BYPASS, pack_and_bits, pack_and_bits_symm, hU])]
    simp [configWord, PLL_REFSEL, PLL_BYPASS, PLL_R, PLL_F, PLL_Q, Nat.and_distrib_right,
      pack_and_bits, pack_and_bits_symm, pack_and_bits_self, hU]
  · rw [key L.pll_q hU.1.1.1.2.2.1
      (by simp [PLL_SEL, pack_and_bits, pack_and_bits_symm, hU])
      (by simp [PLL_LOCK, pack_and_bits, pack_and_bits_symm, hU])
      (by simp [PLL_BYPASS, pack_and_bits, pack_and_bits_symm, hU])]
    simp [configWord, PLL_REFSEL, PLL_BYPASS, PLL_R, PLL_F, PLL_Q, Nat.and_distrib_right,
      pack_and_bits, pack_and_bits_symm, pack_and_bits_self, hU]

/-- C3: whenever `_PrepC` reaches the call of `_Cstart`, that call is its last
step and PLLCFG then has the select bit set, the bypass bit clear, the
reference-select field 0 and the divider fields r = 1, f = 31, q = 1; and if
the ready bit and the lock bit are read as set again and again and the counter
keeps advancing, `_PrepC` reaches that call for every large enough fuel. -/
theorem prepC_ends_with_pll_selected (L : Layout) (hL : L.WF) (hr : L.pll_r.Fits 1)
    (hf : L.pll_f.Fits 31) (hq : L.pll_q.Fits 1) (hw : Hw) (xip : Bool) (m : Machine) :
    (∀ fuel, (_PrepC L hw xip fuel m).2 = true →
      (_PrepC L hw xip fuel m).1.trace.getLast? = some (Event.call .Cstart) ∧
      (_PrepC L hw xip fuel m).1.regs .PLLCFG &&& PLL_SEL L 1 ≠ 0 ∧
      (_PrepC L hw xip fuel m).1.regs .PLLCFG &&& PLL_BYPASS L 1 = 0 ∧
      L.pll_refsel.get ((_PrepC L hw xip fuel m).1.regs .PLLCFG) = 0 ∧
      L.pll_r.get ((_PrepC L hw xip fuel m).1.regs .PLLCFG) = 1 ∧
      L.pll_f.get ((_PrepC L hw xip fuel m).1.regs .PLLCFG) = 31 ∧
      L.pll_q.get ((_PrepC L hw xip fuel m).1.regs .PLLCFG) = 1) ∧
    ((∀ n, ∃ j, hw.rdy (n + j) = true) →
      (∀ n, ∃ j, hw.lock (n + j) = true) →
      (∀ n, ∃ j, 4 ≤ tickDiff (hw.mtime (n + 1 + j) % 4294967296)
        (hw.mtime n % 4294967296)) →
      ∃ N, ∀ fuel, N ≤ fuel → (_PrepC L hw xip fuel m).2 = true) := by
  have hU := wf_unpack hL
  constructor
  · intro fuel hdone
    obtain ⟨k, k2, k3, c, -, -, -, ht, hc, -, hregs, -⟩ := prepC_shape hL hw xip fuel m
    have hc1 := hc hdone
    subst hc1
    rw [hdone] at ht
    rw [hregs hdone]
    obtain ⟨h1, h2, h3, h4, h5, h6⟩ :=
      selected_word hL hw 0 1 31 1 (m.reads .PLLCFG + 2) (hw.lock (m.reads .PLLCFG + 3 + k3))
    refine ⟨?_, h1, h2, ?_, ?_, ?_, ?_⟩
    · rw [ht]
      simp only [if_true, ← List.append_assoc, ← List.cons_append]
      rw [List.getLast?_append]
      simp
    · have := get_eq_of_and L.pll_refsel _ 0 (by simp [Field.Fits]) hU.1.1.1.2.2.2.2.1 h3
      simpa using this
    · have := get_eq_of_and L.pll_r _ 1 hr hU.1.1.1.1 h4
      simpa using this
    · have := get_eq_of_and L.pll_f _ 31 hf hU.1.1.1.2.1 h5
      simpa using this
    · have := get_eq_of_and L.pll_q _ 1 hq hU.1.1.1.2.2.1 h6
      simpa using this
  · intro hrdy hlock htick
    obtain ⟨jr, hjr⟩ := hrdy (m.reads .HFROSCCFG)
    obtain ⟨jl, hjl⟩ := hlock (m.reads .PLLCFG + 3)
    obtain ⟨jt, hjt⟩ := htick (m.reads .MTIME)
    refine ⟨jr + jl + jt + 1, ?_⟩
    intro fuel hfuel
    obtain ⟨k, k2, k3, c, -, -, -, -, -, hciff, -, hout⟩ := prepC_shape hL hw xip fuel m
    have hc : c = true := hciff.2 ⟨jr, by omega, hjr⟩
    by_contra hne
    have hnd : (_PrepC L hw xip fuel m).2 = false := by simpa using hne
    rcases hout hc hnd with h | h
    · have := h jt (by omega)
      omega
    · have := h jl (by omega)
      rw [hjl] at this
      exact Bool.noConfusion this

/-- C3, a concrete run on the sample layout: ready and lock from the third read
on, a counter that advances one tick per sample. -/
theorem prepC_ends_with_pll_selected_witness :
    fe310.WF ∧ fe310.pll_r.Fits 1 ∧ fe310.pll_f.Fits 31 ∧ fe310.pll_q.Fits 1 ∧
    ∃ N, ∀ fuel, N ≤ fuel → (_PrepC fe310 (hwFrom 2 0) true fuel (mkMachine 0 0)).2 = true :=
  ⟨by decide, by decide, by decide, by decide,
   (prepC_ends_with_pll_selected fe310 (by decide) (by decide) (by decide) (by decide)
      (hwFrom 2 0) true (mkMachine 0 0)).2
      (fun n => ⟨2, by simp [hwFrom]⟩)
      (fun n => ⟨2, by simp [hwFrom]⟩)
      (fun n => ⟨3, by simp [hwFrom, tickDiff]; omega⟩)⟩

theorem filter_isStep_hfroscEvents (L : Layout) (hw : Hw) (div trim : Int)
    (stored nH nP k : Nat) (done : Bool) :
    (hfroscEvents L hw div trim stored nH nP k done).filter Event.isStep =
      Event.write .HFROSCCFG (hfroscWord L div trim) ::
        (if done then
          [Event.write .PLLCFG (ovl stored (PLL_LOCK L 1) (hw.lock nP) &&& not32 (PLL_SEL L 1))]
         else []) := by
  cases done <;>
  simp [hfroscEvents, List.filter_cons, List.filter_append, filter_isStep_rdyReads,
    Event.isStep]

theorem call_not_mem_hfroscEvents (L : Layout) (hw : Hw) (div trim : Int)
    (stored nH nP k : Nat) (done : Bool) (fn : Ext) :
    Event.call fn ∉ hfroscEvents L hw div trim stored nH nP k done := by
  cases done <;> simp [hfroscEvents, rdyReads]

theorem call_not_mem_nobypassEvents (L : Layout) (hw : Hw) (refsel r f q : Int)
    (nP nT k2 k3 : Nat) (fn : Ext) :
    Event.call fn ∉ nobypassEvents L hw refsel r f q nP nT k2 k3 := by
  simp [nobypassEvents, tickReads, lockReads]

/-- C8: the trace of `_PrepC` is the call of `_bss_zero`, then the call of
`_data_copy` when `CONFIG_XIP` is set, then the rest `R`, in which neither is
called again; the writes and calls in `R` are always an initial part of the
fixed list `prepSteps` (LFROSC with the enable bit cleared, HFROSCCFG once,
PLLCFG with the select bit cleared, SCKDIV, PLLDIV, PLLCFG three times,
`_Cstart`), and when `_PrepC` reaches the handoff they are the whole list and
the call of `_Cstart` is the last event; otherwise `_Cstart` is not called. -/
theorem prepC_step_order (L : Layout) (hL : L.WF) (hw : Hw) (xip : Bool) (fuel : Nat)
    (m : Machine) :
    ∃ k3 R,
      (_PrepC L hw xip fuel m).1.trace =
        m.trace ++ Event.call .bss_zero ::
          ((if xip then [Event.call .data_copy] else []) ++ R) ∧
      R.filter Event.isStep <+: prepSteps L hw m k3 ∧
      ((_PrepC L hw xip fuel m).2 = true →
        R.filter Event.isStep = prepSteps L hw m k3 ∧
        R.getLast? = some (Event.call .Cstart)) ∧
      ((_PrepC L hw xip fuel m).2 = false → Event.call .Cstart ∉ R) ∧
      Event.call .bss_zero ∉ R ∧ Event.call .data_copy ∉ R ∧
      (m.regs .AON_LFROSC &&& not32 (ROSC_EN L 1)) &&& ROSC_EN L 1 = 0 := by
  obtain ⟨k, k2, k3, c, -, -, -, ht, hc, -, -, -⟩ := prepC_shape hL hw xip fuel m
  refine ⟨k3, _, ht, ?_, ?_, ?_, ?_, ?_, not32_and_self _ _⟩
  · cases c with
    | false =>
      simp only [Bool.false_eq_true, if_false, List.append_nil, List.filter_append,
        filter_isStep_hfroscEvents]
      exact ⟨_, rfl⟩
    | true =>
      cases hd : (_PrepC L hw xip fuel m).2 with
      | false =>
        simp only [if_true, Bool.false_eq_true, if_false, List.append_nil, List.filter_append,
          List.filter_cons, filter_isStep_hfroscEvents, filter_isStep_nobypassEvents,
          Event.isStep]
        exact ⟨_, rfl⟩
      | true =>
        simp only [if_true, List.filter_append, List.filter_cons, List.filter_nil,
          filter_isStep_hfroscEvents, filter_isStep_nobypassEvents, Event.isStep, selectEvents]
        exact ⟨[], rfl⟩
  · intro hd
    have hc1 := hc hd
    subst hc1
    rw [hd]
    constructor
    · simp only [if_true, List.filter_append, List.filter_cons, List.filter_nil,
        filter_isStep_hfroscEvents, filter_isStep_nobypassEvents, Event.isStep, selectEvents]
      rfl
    · simp only [if_true, ← List.append_assoc, ← List.cons_append]
      rw [List.getLast?_append]
      simp
  · intro hd
    rw [hd]
    cases c <;>
    simp [call_not_mem_hfroscEvents, call_not_mem_nobypassEvents]
  · cases c <;> cases (_PrepC L hw xip fuel m).2 <;>
    simp [call_not_mem_hfroscEvents, call_not_mem_nobypassEvents, selectEvents]
  · cases c <;> cases (_PrepC L hw xip fuel m).2 <;>
    simp [call_not_mem_hfroscEvents, call_not_mem_nobypassEvents, selectEvents]

/-- C8, a concrete run on the sample layout with `CONFIG_XIP` set. -/
theorem prepC_step_order_witness :
    fe310.WF ∧
    ∃ k3 R,
      (_PrepC fe310 (hwFrom 2 0) true 8 (mkMachine 0 0)).1.trace =
        (mkMachine 0 0).trace ++ Event.call .bss_zero ::
          ((if true then [Event.call .data_copy] else []) ++ R) ∧
      R.filter Event.isStep = prepSteps fe310 (hwFrom 2 0) (mkMachine 0 0) k3 := by
  obtain ⟨k3, R, h1, -, h3, -⟩ :=
    prepC_step_order fe310 (by decide) (hwFrom 2 0) true 8 (mkMachine 0 0)
  exact ⟨by decide, k3, R, h1, (h3 (by decide)).1⟩

/-! ## The oscillator controller: the claims -/

theorem pllcfgAfter_rdyReads (L : Layout) (hw : Hw) (c stored n0 k : Nat) :
    pllcfgAfter c (rdyReads L hw stored n0 k) = c := by
  unfold rdyReads
  induction (List.range k) with
  | nil => rfl
  | cons j js ih => rw [List.map_cons, pllcfgAfter_read]; exact ih

/-- C4, counterexample: `use_hfrosc(4, 16)` does not write the oscillator
fields only; once ready is read it also writes PLLCFG. -/
theorem use_hfrosc_also_writes_pllcfg :
    ¬ (∀ r v,
        Event.write r v ∈ (use_hfrosc fe310 (hwFrom 0 0) 1 4 16 (mkMachine 0 0)).1.trace →
          r = Reg.HFROSCCFG) := by
  intro h
  have h2 := h .PLLCFG 2147483648 (by decide)
  exact absurd h2 (by decide)

/-- C4, amended: for a divider and a trim the fields can hold, the word
`use_hfrosc` writes to HFROSCCFG has the divider field equal to the divider,
the trim field equal to the trim, the enable bit set and no bit outside these
three fields.  The accesses are exactly: that write, then `k` reads of
HFROSCCFG, each but the last with the ready bit clear, and, when the last shows
the ready bit, one read of PLLCFG and one write of PLLCFG with only the select
bit cleared (the lock position aside); nothing else.  The call returns exactly
when a reading within the fuel has the ready bit set.  HFROSCCFG holds the word
written, PLLCFG is changed only by that last write, and no other register is
changed. -/
theorem use_hfrosc_writes_fields_and_waits_ready (L : Layout) (hL : L.WF) (hw : Hw)
    (fuel : Nat) (div trim : Int) (m : Machine)
    (hd : L.rosc_div.Fits div) (ht : L.rosc_trim.Fits trim) :
    L.rosc_div.get (hfroscWord L div trim) = div.toNat ∧
    L.rosc_trim.get (hfroscWord L div trim) = trim.toNat ∧
    hfroscWord L div trim &&& ROSC_EN L 1 ≠ 0 ∧
    hfroscWord L div trim &&&
      not32 (L.rosc_div.bits ||| L.rosc_trim.bits ||| L.rosc_en.bits) = 0 ∧
    (∀ b, ovl (hfroscWord L div trim) (ROSC_RDY L 1) b &&& ROSC_RDY L 1 ≠ 0 ↔ b = true) ∧
    (∃ k, k ≤ fuel ∧
      (use_hfrosc L hw fuel div trim m).1.trace =
        m.trace ++
          (Event.write .HFROSCCFG (hfroscWord L div trim) ::
            ((List.range k).map (fun j => Event.read .HFROSCCFG
                (ovl (hfroscWord L div trim) (ROSC_RDY L 1)
                  (hw.rdy (m.reads .HFROSCCFG + j))))
              ++ (if (use_hfrosc L hw fuel div trim m).2 then
                    [Event.read .PLLCFG
                       (ovl (m.regs .PLLCFG) (PLL_LOCK L 1) (hw.lock (m.reads .PLLCFG))),
                     Event.write .PLLCFG
                       (ovl (m.regs .PLLCFG) (PLL_LOCK L 1) (hw.lock (m.reads .PLLCFG))
                          &&& not32 (PLL_SEL L 1))]
                  else []))) ∧
      (∀ j, j + 1 < k → hw.rdy (m.reads .HFROSCCFG + j) = false) ∧
      ((use_hfrosc L hw fuel div trim m).2 = true →
        0 < k ∧ hw.rdy (m.reads .HFROSCCFG + (k - 1)) = true) ∧
      ((use_hfrosc L hw fuel div trim m).2 = false →
        k = fuel ∧ ∀ j, j < k → hw.rdy (m.reads .HFROSCCFG + j) = false)) ∧
    ((use_hfrosc L hw fuel div trim m).2 = true ↔
      ∃ j, j < fuel ∧ hw.rdy (m.reads .HFROSCCFG + j) = true) ∧
    (use_hfrosc L hw fuel div trim m).1.regs .HFROSCCFG = hfroscWord L div trim ∧
    (∀ r, r ≠ Reg.HFROSCCFG → r ≠ Reg.PLLCFG →
      (use_hfrosc L hw fuel div trim m).1.regs r = m.regs r) ∧
    ((use_hfrosc L hw fuel div trim m).2 = true →
      (use_hfrosc L hw fuel div trim m).1.regs .PLLCFG =
        ovl (m.regs .PLLCFG) (PLL_LOCK L 1) (hw.lock (m.reads .PLLCFG))
          &&& not32 (PLL_SEL L 1)) ∧
    ((use_hfrosc L hw fuel div trim m).2 = false →
      (use_hfrosc L hw fuel div trim m).1.regs .PLLCFG = m.regs .PLLCFG) ∧
    (ovl (m.regs .PLLCFG) (PLL_LOCK L 1) (hw.lock (m.reads .PLLCFG)) &&& not32 (PLL_SEL L 1))
        &&& PLL_SEL L 1 = 0 ∧
    (ovl (m.regs .PLLCFG) (PLL_LOCK L 1) (hw.lock (m.reads .PLLCFG)) &&& not32 (PLL_SEL L 1))
        &&& not32 (PLL_SEL L 1 ||| PLL_LOCK L 1) =
      m.regs .PLLCFG &&& not32 (PLL_SEL L 1 ||| PLL_LOCK L 1) := by
  have hU := wf_unpack hL
  have hrdy : ROSC_RDY L 1 ≠ 0 := by simpa [ROSC_RDY] using hU.2.2.2.2.2.2.2.2.1
  obtain ⟨f1, f2, f3⟩ := hfroscWord_fields hL div trim hd ht
  obtain ⟨k, hk, ht2, -, hbefore, hdone, hout⟩ := use_hfrosc_shape hL hw fuel div trim m
  obtain ⟨r1, r2, r3, r4⟩ := use_hfrosc_regs L hw fuel div trim m
  refine ⟨f1, f2, f3, hfroscWord_subset hL div trim, fun b => ovl_shows hrdy _ b,
    ⟨k, hk, ?_, hbefore, hdone, hout⟩, use_hfrosc_done_iff hL hw fuel div trim m,
    r1, r2, r3, r4, not32_and_self _ _,
    only_cleared _ _ _ _ (pack_lt L.pll_sel 1) (pack_lt L.pll_lock 1)⟩
  rw [ht2]
  rfl

/-- C4, a concrete run: divider 4 and trim 16 on the sample layout, ready from
the third read on; the call returns after three polls. -/
theorem use_hfrosc_writes_fields_and_waits_ready_witness :
    fe310.WF ∧ fe310.rosc_div.Fits 4 ∧ fe310.rosc_trim.Fits 16 ∧
    fe310.rosc_div.get (hfroscWord fe310 4 16) = 4 ∧
    fe310.rosc_trim.get (hfroscWord fe310 4 16) = 16 ∧
    (use_hfrosc fe310 (hwFrom 2 0) 5 4 16 (mkMachine 0 0)).2 = true ∧
    (use_hfrosc fe310 (hwFrom 2 0) 5 4 16 (mkMachine 0 0)).1.regs .HFROSCCFG
      = hfroscWord fe310 4 16 := by
  have h := use_hfrosc_writes_fields_and_waits_ready fe310 (by decide) (hwFrom 2 0) 5 4 16
    (mkMachine 0 0) (by decide) (by decide)
  exact ⟨by decide, by decide, by decide, h.1, h.2.1,
    h.2.2.2.2.2.2.1.2 ⟨2, by decide, by decide⟩, h.2.2.2.2.2.2.2.1⟩

/-- C6, counterexample: with the select bit set (stored PLLCFG `0x10000`),
`use_hfrosc(4, 16)` writes HFROSCCFG as its first access, while the stored
select bit is still set; it is not cleared first. -/
theorem use_hfrosc_select_not_cleared_first :
    ¬ (∀ pre v post,
        (use_hfrosc fe310 (hwFrom 0 0) 1 4 16 (mkMachine 65536 0)).1.trace
            = pre ++ Event.write .HFROSCCFG v :: post →
          pllcfgAfter 65536 pre &&& PLL_SEL fe310 1 = 0) := by
  intro h
  have e : (use_hfrosc fe310 (hwFrom 0 0) 1 4 16 (mkMachine 65536 0)).1.trace =
      [] ++ Event.write .HFROSCCFG 1074790404 ::
        [Event.read .HFROSCCFG 3222274052, Event.read .PLLCFG 2147549184,
         Event.write .PLLCFG 2147483648] := by decide
  have h2 := h [] _ _ e
  revert h2
  decide

/-- C6, amended: `use_hfrosc` writes HFROSCCFG first, then reads it `k` times;
every value read but the last has the ready bit clear, and through that write
and these reads the stored PLLCFG word is unchanged.  Only when the last value
read shows the ready bit does it read PLLCFG and write it back with the select
bit cleared, as its last access, and return with the stored select bit clear;
it returns exactly when a reading within the fuel has the ready bit set, and
otherwise PLLCFG is left as it was. -/
theorem use_hfrosc_clears_select_last (L : Layout) (hL : L.WF) (hw : Hw) (fuel : Nat)
    (div trim : Int) (m : Machine) :
    ∃ k, k ≤ fuel ∧
      (use_hfrosc L hw fuel div trim m).1.trace =
        m.trace ++ Event.write .HFROSCCFG (hfroscWord L div trim) ::
          (rdyReads L hw (hfroscWord L div trim) (m.reads .HFROSCCFG) k
            ++ (if (use_hfrosc L hw fuel div trim m).2 then
                [Event.read .PLLCFG
                   (ovl (m.regs .PLLCFG) (PLL_LOCK L 1) (hw.lock (m.reads .PLLCFG))),
                 Event.write .PLLCFG
                   (ovl (m.regs .PLLCFG) (PLL_LOCK L 1) (hw.lock (m.reads .PLLCFG))
                      &&& not32 (PLL_SEL L 1))]
               else [])) ∧
      pllcfgAfter (m.regs .PLLCFG)
        (Event.write .HFROSCCFG (hfroscWord L div trim) ::
          rdyReads L hw (hfroscWord L div trim) (m.reads .HFROSCCFG) k) = m.regs .PLLCFG ∧
      (∀ b, ovl (hfroscWord L div trim) (ROSC_RDY L 1) b &&& ROSC_RDY L 1 ≠ 0 ↔ b = true) ∧
      (∀ j, j + 1 < k → hw.rdy (m.reads .HFROSCCFG + j) = false) ∧
      ((use_hfrosc L hw fuel div trim m).2 = true →
        0 < k ∧ hw.rdy (m.reads .HFROSCCFG + (k - 1)) = true ∧
        (use_hfrosc L hw fuel div trim m).1.regs .PLLCFG &&& PLL_SEL L 1 = 0) ∧
      ((use_hfrosc L hw fuel div trim m).2 = false →
        k = fuel ∧ (∀ j, j < k → hw.rdy (m.reads .HFROSCCFG + j) = false) ∧
        (use_hfrosc L hw fuel div trim m).1.regs .PLLCFG = m.regs .PLLCFG) ∧
      ((use_hfrosc L hw fuel div trim m).2 = true ↔
        ∃ j, j < fuel ∧ hw.rdy (m.reads .HFROSCCFG + j) = true) := by
  have hU := wf_unpack hL
  have hrdy : ROSC_RDY L 1 ≠ 0 := by simpa [ROSC_RDY] using hU.2.2.2.2.2.2.2.2.1
  obtain ⟨k, hk, ht2, hregs, hbefore, hdone, hout⟩ := use_hfrosc_shape hL hw fuel div trim m
  obtain ⟨-, -, -, r4⟩ := use_hfrosc_regs L hw fuel div trim m
  refine ⟨k, hk, ?_, ?_, fun b => ovl_shows hrdy _ b, hbefore, ?_, ?_,
    use_hfrosc_done_iff hL hw fuel div trim m⟩
  · rw [ht2]; rfl
  · rw [pllcfgAfter_write]
    simp only [reduceCtorEq, if_false]
    exact pllcfgAfter_rdyReads L hw _ _ _ _
  · intro h
    refine ⟨(hdone h).1, (hdone h).2, ?_⟩
    rw [hregs h]; exact not32_and_self _ _
  · intro h
    exact ⟨(hout h).1, (hout h).2, r4 h⟩

/-- C6, a concrete run on the sample layout made with the select bit set and
ready from the third read on: the call returns with the select bit clear. -/
theorem use_hfrosc_clears_select_last_witness :
    fe310.WF ∧
    (use_hfrosc fe310 (hwFrom 2 0) 5 4 16 (mkMachine 65536 0)).2 = true ∧
    ∃ k, k ≤ 5 ∧ 0 < k ∧ (hwFrom 2 0).rdy ((mkMachine 65536 0).reads .HFROSCCFG + (k - 1)) = true ∧
      (use_hfrosc fe310 (hwFrom 2 0) 5 4 16 (mkMachine 65536 0)).1.regs .PLLCFG
        &&& PLL_SEL fe310 1 = 0 := by
  obtain ⟨k, hk, -, -, -, -, hdone, -, hiff⟩ :=
    use_hfrosc_clears_select_last fe310 (by decide) (hwFrom 2 0) 5 4 16 (mkMachine 65536 0)
  have hd := hiff.2 ⟨2, by decide, by decide⟩
  exact ⟨by decide, hd, k, hk, (hdone hd).1, (hdone hd).2.1, (hdone hd).2.2⟩

end PrepC
